import Mathlib

/-!
Verification of the coordination layer of the `mammoth` repository
(`onmt/utils/distributed.py`): topology model, task distribution
strategies, component/group map construction, and the tolerant gradient
synchronizer.  Python functions are shallowly embedded as Lean
definitions; fallible Python code (raise / assert) is embedded in
`Except String`.
-/

namespace Mammoth

/-! ## Topology model (`WorldContext`, `DeviceContext`) -/

/-- `DeviceContextEnum` from distributed.py. -/
inductive DeviceContextEnum
  | CPU
  | SINGLE_GPU
  | MULTI_GPU
  deriving DecidableEq, Repr

/-- `WorldContext` dataclass: cluster shape. -/
structure WorldContext where
  context : DeviceContextEnum
  n_nodes : ℕ
  gpus_per_node : ℕ
  deriving DecidableEq, Repr

/-- `WorldContext.world_size` property: `n_nodes * gpus_per_node`. -/
def WorldContext.world_size (wc : WorldContext) : ℕ :=
  wc.n_nodes * wc.gpus_per_node

/-- `WorldContext.is_distributed`. -/
def WorldContext.is_distributed (wc : WorldContext) : Bool :=
  wc.context = DeviceContextEnum.MULTI_GPU

/-- `WorldContext.is_gpu`. -/
def WorldContext.is_gpu (wc : WorldContext) : Bool :=
  wc.context ≠ DeviceContextEnum.CPU

/-- `WorldContext.from_opt`.  The Python reads `gpus_per_node =
len(opt.gpu_ranks)`, `world_size = int(opt.world_size) if gpus_per_node
> 0 else 0`, and dispatches on the sign of `world_size`; `raise
ValueError` is embedded as `Except.error`.  Inputs are the length of
`opt.gpu_ranks`, the configured `opt.world_size` (an arbitrary integer:
non-positive values select CPU mode), and `opt.n_nodes`. -/
def WorldContext.from_opt (gpu_ranks_len : ℕ) (opt_world_size : ℤ)
    (n_nodes : ℕ) : Except String WorldContext :=
  let world_size : ℤ := if gpu_ranks_len > 0 then opt_world_size else 0
  let multinode : Bool := (gpu_ranks_len : ℤ) ≠ world_size
  if world_size ≤ 0 then
    -- setting a non-positive world size means use CPU
    if n_nodes ≠ 1 then
      Except.error "CPU training is only possible on a single node"
    else
      Except.ok ⟨DeviceContextEnum.CPU, n_nodes, gpu_ranks_len⟩
  else if world_size = 1 then
    -- world size 1 uses GPU, but is not distributed
    if n_nodes ≠ 1 then
      Except.error "Invalid single-gpu node configuration"
    else
      Except.ok ⟨DeviceContextEnum.SINGLE_GPU, n_nodes, gpu_ranks_len⟩
  else
    -- world size > 1
    if multinode ∧ n_nodes = 1 then
      Except.error "Invalid multi-node configuration"
    else
      Except.ok ⟨DeviceContextEnum.MULTI_GPU, n_nodes, gpu_ranks_len⟩

/-- `DeviceContext` dataclass: a `WorldContext` plus this process's
position in it. -/
structure DeviceContext extends WorldContext where
  node_rank : ℕ
  local_rank : ℕ
  deriving DecidableEq, Repr

/-- `DeviceContext.global_rank` property. -/
def DeviceContext.global_rank (dc : DeviceContext) : ℕ :=
  dc.gpus_per_node * dc.node_rank + dc.local_rank

/-- `WorldContext.global_to_local`: attach a device position. -/
def WorldContext.global_to_local (wc : WorldContext) (node_rank local_rank : ℕ) :
    DeviceContext :=
  { context := wc.context, n_nodes := wc.n_nodes,
    gpus_per_node := wc.gpus_per_node,
    node_rank := node_rank, local_rank := local_rank }

/-- `DeviceContext.validate`: the `assert`s checking consistency with
the authoritative `WorldContext` and that the ranks are in range
(`0 ≤` is automatic over `ℕ`). -/
def DeviceContext.validate (dc : DeviceContext) (wc : WorldContext) : Bool :=
  dc.context = wc.context ∧
  dc.n_nodes = wc.n_nodes ∧
  dc.gpus_per_node = wc.gpus_per_node ∧
  dc.node_rank < dc.n_nodes ∧
  (dc.toWorldContext.is_gpu → dc.local_rank < dc.gpus_per_node)

/-! ## Task distribution strategies -/

/-- `WeightedSamplingTaskDistributionStrategy` state. -/
structure WeightedSamplingStrategy where
  my_corpus_ids : List String
  my_weights : List ℚ
  my_introduce_at_training_step : List ℕ
  deriving DecidableEq, Repr

/-- `WeightedSamplingTaskDistributionStrategy.__init__` with its sanity
checks, in source order; `assert` and `raise ValueError` are both
embedded as `Except.error`. -/
def WeightedSamplingStrategy.init (ids : List String) (ws : List ℚ)
    (intro : List ℕ) : Except String WeightedSamplingStrategy :=
  if ids.length ≠ ws.length then
    Except.error "assert len(my_corpus_ids) == len(my_weights)"
  else if ids.length ≠ intro.length then
    Except.error "assert len(my_corpus_ids) == len(my_introduce_at_training_step)"
  else if ids.length = 0 then
    Except.error "No corpora on device"
  else if ws.sum ≤ 0 then
    Except.error "Can not set weight of all corpora on a device to zero"
  else if ∀ x ∈ intro, 0 < x then
    Except.error "Can not set introduce_at_training_step of all corpora on a device to nonzero"
  else if ∀ p ∈ ws.zip intro, p.1 = 0 ∨ 0 < p.2 then
    Except.error "Invalid curriculum: no corpus is ready to start in the first step"
  else
    Except.ok ⟨ids, ws, intro⟩

/-- Inverse-CDF draw from a categorical distribution with probability
vector `p`, given a uniform variate `u`: the first index whose
cumulative probability exceeds `u`.  This models one draw of
`np.random.choice(ids, p=p)`. -/
def invCDF : List ℚ → ℚ → ℕ
  | [], _ => 0
  | w :: ws, u => if u < w then 0 else invCDF ws (u - w) + 1

/-- `WeightedSamplingTaskDistributionStrategy.sample_corpus_ids`: zero
the weights of not-yet-introduced corpora, `assert sum_w > 0`,
normalize, and draw `n_samples` ids with replacement.  The random
source of `np.random.choice` is modelled by the stream `us` of uniform
variates consumed through `invCDF`. -/
def WeightedSamplingStrategy.sample_corpus_ids (s : WeightedSamplingStrategy)
    (n_samples : ℕ) (communication_batch_id : ℕ) (us : ℕ → ℚ) :
    Except String (List String) :=
  let weights := s.my_weights.zipWith
    (fun w intro => if intro ≤ communication_batch_id then w else 0)
    s.my_introduce_at_training_step
  let sum_w := weights.sum
  if 0 < sum_w then
    let p := weights.map (· / sum_w)
    Except.ok ((List.range n_samples).map
      (fun k => s.my_corpus_ids.getD (invCDF p (us k)) ""))
  else
    Except.error "assert sum_w > 0"

/-- `RoundRobinTaskDistributionStrategy` state: the `cycle` iterator is
represented by the corpus-id list plus the number of elements already
consumed from the infinite cycle. -/
structure RoundRobinStrategy where
  my_corpus_ids : List String
  consumed : ℕ
  deriving DecidableEq, Repr

/-- `RoundRobinTaskDistributionStrategy.__init__`. -/
def RoundRobinStrategy.init (ids : List String) : RoundRobinStrategy :=
  ⟨ids, 0⟩

/-- Element `k` of the infinite cyclic sequence `cycle(ids)`. -/
def cycleSeq (ids : List String) (k : ℕ) : String :=
  ids.getD (k % ids.length) ""

/-- `RoundRobinTaskDistributionStrategy.sample_corpus_ids`:
`list(islice(self.infinite_corpus_ids, n_samples))`, returning the
batch and the advanced iterator state.  `islice` of `cycle([])` is
empty.  The `communication_batch_id` argument is accepted and unused,
as in the source. -/
def RoundRobinStrategy.sample_corpus_ids (s : RoundRobinStrategy)
    (n_samples : ℕ) (communication_batch_id : ℕ) :
    List String × RoundRobinStrategy :=
  if s.my_corpus_ids.isEmpty then ([], s)
  else
    ((List.range n_samples).map (fun k => cycleSeq s.my_corpus_ids (s.consumed + k)),
      ⟨s.my_corpus_ids, s.consumed + n_samples⟩)

/-! ## Task registry and the Task-Queue Coordinator's component maps -/

/-- `TaskSpecs` dataclass (fields relevant to the coordination layer;
vocab/opt handles are external collaborators).  Adapter id lists model
Python `None` as `[]`: both are falsy in the `if task.encoder_adapter_ids:`
guards. -/
structure TaskSpecs where
  node_rank : ℕ
  local_rank : ℕ
  src_lang : String
  tgt_lang : String
  encoder_id : List String
  decoder_id : List String
  corpus_id : String
  weight : ℚ
  introduce_at_training_step : ℕ
  encoder_adapter_ids : List (ℕ × String × String)
  decoder_adapter_ids : List (ℕ × String × String)
  deriving DecidableEq, Repr

/-- Component keys of `components_to_gpus`: tuples of strings whose
length varies with the component type (the first tuple slot is the
type tag, the rest the component id). -/
inductive CKey
  | src_emb (lang : String)
  | tgt_emb (lang : String)
  | encoder (layer_stack_index : ℕ) (encoder_id : String)
  | decoder (layer_stack_index : ℕ) (decoder_id : String)
  | encoder_adapters (layer_stack_index : ℕ) (encoder_id : String)
      (adapter_group : String) (sub_id : String)
  | decoder_adapters (layer_stack_index : ℕ) (decoder_id : String)
      (adapter_group : String) (sub_id : String)
  deriving DecidableEq, Repr

/-- `OrderedDict.setdefault(key, set()).add(global_rank)`: insertion-order
association list of key → set of global ranks. -/
def addKey (m : List (CKey × Finset ℕ)) (k : CKey) (r : ℕ) :
    List (CKey × Finset ℕ) :=
  match m with
  | [] => [(k, {r})]
  | (k', s) :: rest =>
      if k' = k then (k', insert r s) :: rest
      else (k', s) :: addKey rest k r

/-- `TaskQueueManager._tasks_on_device`. -/
def tasksOnDevice (tasks : List TaskSpecs) (node_rank local_rank : ℕ) :
    List TaskSpecs :=
  tasks.filter (fun t => t.node_rank = node_rank ∧ t.local_rank = local_rank)

/-- The component keys contributed by one task, in source order:
`src_emb`, `tgt_emb`, then encoder stacks by index, then decoder stacks
by index. -/
def taskBasicKeys (t : TaskSpecs) : List CKey :=
  [CKey.src_emb t.src_lang, CKey.tgt_emb t.tgt_lang]
    ++ t.encoder_id.mapIdx (fun i e => CKey.encoder i e)
    ++ t.decoder_id.mapIdx (fun i d => CKey.decoder i d)

/-- The adapter keys contributed by one task (added after the basic
keys): `('encoder_adapters', layer_stack_index, encoder_id,
adapter_group, sub_id)` and likewise for the decoder. -/
def taskAdapterKeys (t : TaskSpecs) : List CKey :=
  t.encoder_adapter_ids.map (fun a =>
    CKey.encoder_adapters a.1 (t.encoder_id.getD a.1 "") a.2.1 a.2.2)
    ++ t.decoder_adapter_ids.map (fun a =>
      CKey.decoder_adapters a.1 (t.decoder_id.getD a.1 "") a.2.1 a.2.2)

/-- Accumulate one task's keys into `components_to_gpus`. -/
def addTask (m : List (CKey × Finset ℕ)) (global_rank : ℕ) (t : TaskSpecs) :
    List (CKey × Finset ℕ) :=
  (taskBasicKeys t ++ taskAdapterKeys t).foldl (fun m k => addKey m k global_rank) m

/-- The `components_to_gpus` accumulation loop of
`create_all_distributed_groups`: all `(node_rank, local_rank)` pairs in
ascending order, and for each, its local tasks in registration order. -/
def componentsToGpus (tasks : List TaskSpecs) (n_nodes gpus_per_node : ℕ) :
    List (CKey × Finset ℕ) :=
  (List.range n_nodes).foldl (fun m node_rank =>
    (List.range gpus_per_node).foldl (fun m local_rank =>
      (tasksOnDevice tasks node_rank local_rank).foldl
        (fun m t => addTask m (node_rank * gpus_per_node + local_rank) t) m) m) []

/-- The group-creation pass of `create_all_distributed_groups`: for each
key of `components_to_gpus` holding ≥ 2 gpus, call
`new_group_func(sorted_global_ranks)` once and store
`(min_rank, handle)`.  The group handle is modelled as the sorted rank
list handed to the factory; the second component of the result is the
trace of factory invocations, tagged with the key being processed. -/
def componentsToGroups (gpus : List (CKey × Finset ℕ)) :
    List (CKey × (ℕ × List ℕ)) × List (CKey × List ℕ) :=
  gpus.foldl (fun acc kv =>
    if 2 ≤ kv.2.card then
      let sorted := kv.2.sort (· ≤ ·)
      let min_rank := sorted.headD 0
      (acc.1 ++ [(kv.1, (min_rank, sorted))], acc.2 ++ [(kv.1, sorted)])
    else acc) ([], [])

/-- `TaskQueueManager.create_all_distributed_groups` (distributed case):
builds `components_to_gpus` then `components_to_groups`.  In the
non-distributed case both maps are emptied. -/
def create_all_distributed_groups (tasks : List TaskSpecs)
    (world : WorldContext) :
    List (CKey × Finset ℕ) × List (CKey × (ℕ × List ℕ)) × List (CKey × List ℕ) :=
  if ¬world.is_distributed then ([], [], [])
  else
    let gpus := componentsToGpus tasks world.n_nodes world.gpus_per_node
    let (groups, calls) := componentsToGroups gpus
    (gpus, groups, calls)

/-- Closed sum of the entries of `TASK_DISTRIBUTION_STRATEGIES`. -/
inductive Strategy
  | weighted (s : WeightedSamplingStrategy)
  | roundRobin (s : RoundRobinStrategy)
  deriving DecidableEq, Repr

/-- The configuration fields consumed by `_get_strategy`:
`opt.task_distribution_strategy` plus the per-corpus `weight` and
`introduce_at_training_step` records. -/
structure OptModel where
  task_distribution_strategy : String
  weightOf : String → ℚ
  introOf : String → ℕ

/-- `TASK_DISTRIBUTION_STRATEGIES[opt.task_distribution_strategy].from_opt`:
dictionary dispatch plus the strategy's `from_opt`/`__init__`. -/
def strategyFromOpt (opt : OptModel) (my_corpus_ids : List String) :
    Except String Strategy :=
  if opt.task_distribution_strategy = "weighted_sampling" then
    (WeightedSamplingStrategy.init my_corpus_ids
      (my_corpus_ids.map opt.weightOf) (my_corpus_ids.map opt.introOf)).map
      Strategy.weighted
  else if opt.task_distribution_strategy = "roundrobin" then
    Except.ok (Strategy.roundRobin (RoundRobinStrategy.init my_corpus_ids))
  else
    Except.error "KeyError: unknown task_distribution_strategy"

/-- `TaskQueueManager` state. -/
structure TQM where
  tasks : List TaskSpecs
  tasks_per_communication_batch : ℕ
  world_context : WorldContext
  device_context : Option DeviceContext
  components_to_gpus : Option (List (CKey × Finset ℕ))
  components_to_groups : Option (List (CKey × (ℕ × List ℕ)))
  task_distribution_strategy : Option Strategy
  uses_adapters : Bool

/-- `TaskQueueManager.__init__`: when a `device_context` is supplied it
is validated against the `world_context` (the `assert`s of
`DeviceContext.validate` embedded as `Except.error`). -/
def TQM.mkChecked (tasks : List TaskSpecs) (tpcb : ℕ) (world : WorldContext)
    (dc : Option DeviceContext) (gpus : Option (List (CKey × Finset ℕ)))
    (groups : Option (List (CKey × (ℕ × List ℕ))))
    (strat : Option Strategy) (ua : Bool) : Except String TQM :=
  match dc with
  | some d =>
      if d.validate world then
        Except.ok ⟨tasks, tpcb, world, some d, gpus, groups, strat, ua⟩
      else
        Except.error "AssertionError: DeviceContext.validate"
  | none => Except.ok ⟨tasks, tpcb, world, none, gpus, groups, strat, ua⟩

/-- `TaskQueueManager.node_rank` property: raises on the global view. -/
def TQM.node_rank (tqm : TQM) : Except String ℕ :=
  match tqm.device_context with
  | none => Except.error "Trying to get node_rank of global TQM"
  | some dc => Except.ok dc.node_rank

/-- `TaskQueueManager.local_rank` property: raises on the global view. -/
def TQM.local_rank (tqm : TQM) : Except String ℕ :=
  match tqm.device_context with
  | none => Except.error "Trying to get local_rank of global TQM"
  | some dc => Except.ok dc.local_rank

/-- `TaskQueueManager._get_strategy`: builds the strategy for the tasks
on the given device, re-wrapping any exception. -/
def TQM.get_strategy (tqm : TQM) (node_rank local_rank : ℕ) (opt : OptModel) :
    Except String Strategy :=
  match strategyFromOpt opt
      ((tasksOnDevice tqm.tasks node_rank local_rank).map (·.corpus_id)) with
  | Except.ok s => Except.ok s
  | Except.error e =>
      Except.error ("Exception when creating task distribution strategy " ++ e)

/-- `TaskQueueManager.global_to_local`: builds the device's strategy and
returns a localized coordinator sharing tasks and component maps. -/
def TQM.global_to_local (tqm : TQM) (node_rank local_rank : ℕ)
    (opt : OptModel) : Except String TQM :=
  match tqm.get_strategy node_rank local_rank opt with
  | Except.error e => Except.error e
  | Except.ok strat =>
      TQM.mkChecked tqm.tasks tqm.tasks_per_communication_batch
        tqm.world_context
        (some (tqm.world_context.global_to_local node_rank local_rank))
        tqm.components_to_gpus tqm.components_to_groups (some strat)
        tqm.uses_adapters

/-- `create_all_distributed_groups` as a state update on the
coordinator (the method stores both maps on `self`). -/
def TQM.create_all (tqm : TQM) : TQM :=
  let maps := create_all_distributed_groups tqm.tasks tqm.world_context
  { tqm with components_to_gpus := some maps.1, components_to_groups := some maps.2.1 }

/-- `TaskQueueManager.get_distributed_groups`: lazily builds the maps if
`components_to_groups is None`, reads `self.global_rank` (which raises
on the global view), then keeps only the group-map entries whose device
set contains this global rank.  Returns the result and the (possibly
updated) coordinator. -/
def TQM.get_distributed_groups (tqm : TQM) :
    Except String (List (CKey × (ℕ × List ℕ)) × TQM) :=
  let tqm := if tqm.components_to_groups.isNone then tqm.create_all else tqm
  match tqm.device_context with
  | none => Except.error "Trying to get node_rank of global TQM"
  | some dc =>
      match tqm.components_to_gpus, tqm.components_to_groups with
      | some gpus, some groups =>
          let global_rank := dc.node_rank * tqm.world_context.gpus_per_node + dc.local_rank
          let my := gpus.foldl (fun acc kv =>
            if global_rank ∈ kv.2 then
              match groups.lookup kv.1 with
              | some g => acc ++ [(kv.1, g)]
              | none => acc   -- component on a single device: omitted, logged
            else acc) []
          Except.ok (my, tqm)
      | _, _ => Except.error "TypeError: components_to_gpus is None"

/-! ## Tolerant gradient synchronizer (`only_ready_reduce_and_rescale_grads`)

A parameter is modelled by its `requires_grad` and `has_grad` flags and
its gradient buffer (`none` = Python `p.grad is None`); tensor elements
behave uniformly and independently under the elementwise operations
involved, so the gradient is modelled by a single rational
representative element.  The devices of the communication group run the
function in lockstep; `torch.distributed.all_reduce` is modelled by its
semantics, the pointwise sum over the group (the chunked transport used
by the implementation is shown equivalent to the pointwise sum
separately, for `all_reduce_and_rescale_tensors`). -/

/-- A named parameter as seen by the synchronizer. -/
structure GParam where
  requires_grad : Bool
  has_grad : Bool
  grad : Option ℚ
  deriving DecidableEq, Repr

instance : Inhabited GParam := ⟨⟨false, false, none⟩⟩

/-- `require_grad = [(name, p) ... if p.requires_grad]`. -/
def requireGrad (ps : List GParam) : List GParam :=
  ps.filter (·.requires_grad)

/-- The ready bit appended to `ready_list`: `1.0` if
`hasattr(p, 'has_grad') and p.has_grad` else `0.0`. -/
def readyBit (p : GParam) : ℚ :=
  if p.has_grad then 1 else 0

/-- The zero-fill at entry: a parameter that is not ready and has no
gradient buffer gets `p.grad = torch.zeros_like(p)`. -/
def zeroFill (p : GParam) : GParam :=
  if p.has_grad then p else { p with grad := some (p.grad.getD 0) }

/-- The value this device contributes to the gradient all-reduce:
`p.grad.data` after the zero-fill. -/
def gradVal (p : GParam) : ℚ :=
  (zeroFill p).grad.getD 0

/-- Element `i` of the all-reduced `ready_t`: the participation count
of the `i`-th parameter of the `require_grad` list, summed over the
communication group. -/
def countAt (devs : List (List GParam)) (i : ℕ) : ℚ :=
  (devs.map (fun dev => readyBit ((requireGrad dev).getD i default))).sum

/-- Element `i` of the all-reduce-sum over the group of the
(zero-filled) gradients. -/
def sumAt (devs : List (List GParam)) (i : ℕ) : ℚ :=
  (devs.map (fun dev => gradVal ((requireGrad dev).getD i default))).sum

/-- The indices surviving the `denom > 0` filter: the parameters kept
in `grads` for the chunked all-reduce. -/
def survivors (cnt : ℕ → ℚ) (nRG : ℕ) : List ℕ :=
  (List.range nRG).filter (fun i => 0 < cnt i)

/-- Post-synchronization state of one `require_grad` parameter whose
index in the `require_grad` list is `i`.  `anyS` is `len(grads) > 0`:
when false the function returned early (after the zero-fill); when true
`has_grad` is set on every `require_grad` parameter, and a parameter
with a positive count receives the all-reduced sum divided by its own
count. -/
def syncParam (cnt sm : ℕ → ℚ) (anyS : Bool) (p : GParam) (i : ℕ) : GParam :=
  let p1 := zeroFill p
  if anyS then
    { requires_grad := p1.requires_grad
      has_grad := true
      grad := if 0 < cnt i then some (sm i / cnt i) else p1.grad }
  else p1

/-- Walk the parameter list, applying `syncParam` to each
`require_grad` parameter with its index within the `require_grad`
sublist (parameters with `requires_grad = False` are untouched: they are
filtered out at entry). -/
def syncGo (cnt sm : ℕ → ℚ) (anyS : Bool) : List GParam → ℕ → List GParam
  | [], _ => []
  | p :: ps, k =>
      if p.requires_grad then
        syncParam cnt sm anyS p k :: syncGo cnt sm anyS ps (k + 1)
      else
        p :: syncGo cnt sm anyS ps k

/-- `only_ready_reduce_and_rescale_grads` as executed on one device,
given the group-wide reduction results `cnt` and `sm`: early exit if no
parameter requires grad, otherwise zero-fill, reduce, filter, and
rescale. -/
def syncDevice (cnt sm : ℕ → ℚ) (ps : List GParam) : List GParam :=
  let rg := requireGrad ps
  if rg.isEmpty then ps
  else
    let anyS := !(survivors cnt rg.length).isEmpty
    syncGo cnt sm anyS ps 0

/-- `only_ready_reduce_and_rescale_grads` run in lockstep on every
device of the communication group. -/
def only_ready_reduce_and_rescale_grads (devs : List (List GParam)) :
    List (List GParam) :=
  devs.map (syncDevice (countAt devs) (sumAt devs))

/-- The sum of the real gradients contributed for parameter `i`: only
devices whose parameter was ready contribute their actual gradient. -/
def sumRealAt (devs : List (List GParam)) (i : ℕ) : ℚ :=
  (devs.map (fun dev =>
    let p := (requireGrad dev).getD i default
    if p.has_grad then p.grad.getD 0 else 0)).sum

/-! ## Chunked all-reduce (`all_reduce_and_rescale_tensors`)

Tensors are modelled as flattened lists of rationals with a common
element size in bytes.  All devices of the group run the function in
lockstep on identically-shaped tensor lists, so every communicated
buffer position corresponds, on every device, to the same logical
element; `torch.distributed.all_reduce` therefore adds, at each
position, the sum of the other devices' values for that logical
element, supplied here as `other : ℕ → ℚ` indexed by the element's
offset in the flattened concatenation of all tensors. -/

/-- Flat offset of tensor `i` in the concatenation of all tensors. -/
def flatOffset (ts : List (List ℚ)) (i : ℕ) : ℕ :=
  ((ts.take i).map List.length).sum

/-- `torch.distributed.all_reduce` on a tensor whose first element sits
at flat offset `off`: each element gains the other devices' sum. -/
def addOther (other : ℕ → ℚ) : ℕ → List ℚ → List ℚ
  | _, [] => []
  | off, x :: xs => (x + other off) :: addOther other (off + 1) xs

/-- The other devices' contribution to a communicated segment of `n`
elements starting at flat offset `off`. -/
def otherSeg (other : ℕ → ℚ) (off n : ℕ) : List ℚ :=
  (List.range n).map (fun j => other (off + j))

/-- The `copy tensors into buffer_t` loop: the contents of
`buffer_t[:offset]` after packing the buffered tensors. -/
def packBuffer (vals : List (List ℚ)) (buffer : List ℕ) : List ℚ :=
  (buffer.map (fun i => vals.getD i [])).flatten

/-- The other devices' packed buffer: by lockstep symmetry it packs, in
the same order, their values of the same logical elements. -/
def otherPack (other : ℕ → ℚ) (offs : ℕ → ℕ) (vals : List (List ℚ))
    (buffer : List ℕ) : List ℚ :=
  (buffer.map (fun i => otherSeg other (offs i) (vals.getD i []).length)).flatten

/-- The `copy all-reduced buffer back into tensors` loop of
`all_reduce_buffer`, standalone: walk the buffered tensor indices,
slicing `divided` at the running element offset into each tensor. -/
def unpackGo (vals : List (List ℚ)) (divided : List ℚ) (buffer : List ℕ)
    (acc : List (List ℚ) × ℕ) : List (List ℚ) × ℕ :=
  buffer.foldl (fun acc2 i =>
    ((acc2.1).set i ((divided.drop acc2.2).take (vals.getD i []).length),
      acc2.2 + (vals.getD i []).length)) acc

/-- `all_reduce_buffer`: pack the buffered tensors into the transfer
buffer, all-reduce it (pointwise sum with the other devices' packed
buffer), rescale by `rescale_denom`, and copy each slice back into its
tensor (`vals.set`).  `buffer` holds the indices of the buffered
tensors; `offs i` is tensor `i`'s flat offset. -/
def flushBuffer (other : ℕ → ℚ) (denom : ℚ) (offs : ℕ → ℕ)
    (vals : List (List ℚ)) (buffer : List ℕ) : List (List ℚ) :=
  let divided := ((packBuffer vals buffer).zipWith (· + ·)
    (otherPack other offs vals buffer)).map (· / denom)
  (unpackGo vals divided buffer (vals, 0)).1

/-- The main loop of `all_reduce_and_rescale_tensors` over the tensor
indices: a tensor bigger than the buffer is all-reduced and rescaled
directly; if it no longer fits, the buffer is flushed and restarted
with it; otherwise it is appended to the buffer.  A final non-empty
buffer is flushed. -/
def arGo (other : ℕ → ℚ) (denom : ℚ) (esize bufsize : ℕ) (offs : ℕ → ℕ) :
    List ℕ → List (List ℚ) → List ℕ → ℕ → List (List ℚ)
  | [], vals, buffer, _filled =>
      if buffer.length > 0 then flushBuffer other denom offs vals buffer else vals
  | i :: rest, vals, buffer, filled =>
      let t := vals.getD i []
      let sz := t.length * esize
      if sz > bufsize then
        arGo other denom esize bufsize offs rest
          (vals.set i ((addOther other (offs i) t).map (· / denom))) buffer filled
      else if filled + sz > bufsize then
        arGo other denom esize bufsize offs rest
          (flushBuffer other denom offs vals buffer) [i] sz
      else
        arGo other denom esize bufsize offs rest vals (buffer ++ [i]) (filled + sz)

/-- `all_reduce_and_rescale_tensors(tensors, rescale_denom, group,
buffer_size)`: `esize` is the tensors' element size in bytes.  An empty
tensor list raises (`tensors[0]`), modelled as `none`.  The preallocated
`buffer_t` (capacity `⌈buffer_size / esize⌉` elements, never exceeded
because at most `buffer_size` bytes are ever buffered) is represented by
its live prefix `buffer_t[:offset]` inside `flushBuffer`. -/
def all_reduce_and_rescale_tensors (other : ℕ → ℚ) (ts : List (List ℚ))
    (rescale_denom : ℚ) (esize bufsize : ℕ) : Option (List (List ℚ)) :=
  if ts.isEmpty then none
  else some (arGo other rescale_denom esize bufsize (flatOffset ts)
    (List.range ts.length) ts [] 0)

/-- The unchunked reference: each tensor all-reduced individually and
divided by the denominator. -/
def naive_all_reduce_and_rescale (other : ℕ → ℚ) (ts : List (List ℚ))
    (denom : ℚ) : List (List ℚ) :=
  (List.range ts.length).map
    (fun i => (addOther other (flatOffset ts i) (ts.getD i [])).map (· / denom))

/-! ## Concrete fixtures

A two-task, two-node × one-gpu configuration sharing the encoder
component `x` across both devices (used to instantiate the theorems
below on concrete inputs). -/

def demoTask0 : TaskSpecs :=
  ⟨0, 0, "a", "b", ["x"], ["b"], "a-b", 1, 0, [], []⟩

def demoTask1 : TaskSpecs :=
  ⟨1, 0, "c", "b", ["x"], ["b"], "c-b", 1, 0, [], []⟩

def demoTasks : List TaskSpecs := [demoTask0, demoTask1]

def demoWorld : WorldContext := ⟨DeviceContextEnum.MULTI_GPU, 2, 1⟩

/-- A localized coordinator on global rank 0 whose component maps have
not been built yet. -/
def demoTQM : TQM :=
  ⟨demoTasks, 1, demoWorld, some (demoWorld.global_to_local 0 0),
    none, none, none, false⟩

/-- Configuration used to instantiate strategy construction. -/
def demoOpt : OptModel := ⟨"roundrobin", fun _ => 1, fun _ => 0⟩

/-- The un-localized (global) coordinator for the fixture. -/
def demoGlobalTQM : TQM :=
  ⟨demoTasks, 1, demoWorld, none, none, none, none, false⟩

/-! ## Theorems -/

/-- **C3, counterexample.**  The claim says `WorldContext` construction
fails whenever the supplied `world_size` is positive but inconsistent
with `node_count × devices_per_node`.  With `gpus_per_node = 2`,
`world_size = 6`, `n_nodes = 2` the construction succeeds even though
`6 ≠ 2 × 2`; the constructed context's `world_size` property is `4`,
not the supplied `6`. -/
theorem C3_counterexample :
    WorldContext.from_opt 2 6 2
        = Except.ok ⟨DeviceContextEnum.MULTI_GPU, 2, 2⟩
      ∧ (WorldContext.mk DeviceContextEnum.MULTI_GPU 2 2).world_size = 4
      ∧ (6 : ℤ) ≠ ((4 : ℕ) : ℤ) := by
  refine ⟨rfl, rfl, by decide⟩

/-- **C3, amended.**  `WorldContext.from_opt` fails exactly when the
effective world size (`opt.world_size` if `gpus_per_node > 0`, else 0)
is non-positive (CPU) or 1 (single GPU) while `n_nodes ≠ 1`, or is > 1
with `gpus_per_node ≠ world_size` and `n_nodes = 1`; it performs no
other consistency check, so a successful construction need not satisfy
`world_size == n_nodes × gpus_per_node`.  On success, the context
records the supplied `n_nodes` and `gpus_per_node` and
`is_distributed()` holds iff the effective supplied world size
is > 1. -/
theorem C3_amended (g : ℕ) (w : ℤ) (n : ℕ) :
    ((WorldContext.from_opt g w n).isOk = false ↔
      (((if 0 < g then w else 0) ≤ 0 ∧ n ≠ 1)
        ∨ ((if 0 < g then w else 0) = 1 ∧ n ≠ 1)
        ∨ (1 < (if 0 < g then w else 0) ∧ (g : ℤ) ≠ (if 0 < g then w else 0) ∧ n = 1)))
    ∧ ∀ wc, WorldContext.from_opt g w n = Except.ok wc →
        wc.n_nodes = n ∧ wc.gpus_per_node = g ∧
        (wc.is_distributed = true ↔ 1 < (if 0 < g then w else 0)) := by
  simp only [WorldContext.from_opt, gt_iff_lt, decide_eq_true_eq]
  split_ifs with h1 h2 h3 h4 h5 h6 <;>
    constructor <;>
    first
      | (simp [Except.isOk, Except.toBool]; omega)
      | (intro wc hwc; exact Except.noConfusion hwc)
      | (intro wc hwc; injection hwc with hwc; subst hwc;
         exact ⟨rfl, rfl, iff_of_false (by simp [WorldContext.is_distributed]) (by omega)⟩)
      | (intro wc hwc; injection hwc with hwc; subst hwc;
         exact ⟨rfl, rfl, iff_of_true (by simp [WorldContext.is_distributed]) (by omega)⟩)
      | (simp [Except.isOk, Except.toBool])

/-- Witness for `C3_amended` at `gpus_per_node = 4`, `world_size = 1`,
`n_nodes = 1`: construction succeeds and the context is not
distributed (note `world_size` property `4` ≠ supplied `1`). -/
theorem C3_amended_witness :
    WorldContext.from_opt 4 1 1
        = Except.ok ⟨DeviceContextEnum.SINGLE_GPU, 1, 4⟩
      ∧ ((WorldContext.mk DeviceContextEnum.SINGLE_GPU 1 4).is_distributed = true
          ↔ 1 < (if 0 < (4 : ℕ) then (1 : ℤ) else 0)) :=
  ⟨rfl, ((C3_amended 4 1 1).2 _ rfl).2.2⟩

/-- **C8.**  For a non-empty local task list, RoundRobin's
`sample_corpus_ids(n, step)` returns the next `n` elements of the
infinite cyclic sequence over the ids in registration order and
advances the iterator by `n` (so concatenating consecutive calls
extends the same cycle: the output never fails and always has length
`n`); it is independent of the step (and of weight/curriculum fields,
which it does not receive at all); and a call consuming one full cycle
from a cycle boundary returns every local task id exactly once, in
registration order. -/
theorem C8 (ids : List String) (pos n step step' c : ℕ) (h : ids ≠ []) :
    (RoundRobinStrategy.sample_corpus_ids ⟨ids, pos⟩ n step).1
        = (List.range n).map (fun k => cycleSeq ids (pos + k))
    ∧ (RoundRobinStrategy.sample_corpus_ids ⟨ids, pos⟩ n step).2
        = ⟨ids, pos + n⟩
    ∧ (RoundRobinStrategy.sample_corpus_ids ⟨ids, pos⟩ n step).1.length = n
    ∧ RoundRobinStrategy.sample_corpus_ids ⟨ids, pos⟩ n step
        = RoundRobinStrategy.sample_corpus_ids ⟨ids, pos⟩ n step'
    ∧ (RoundRobinStrategy.sample_corpus_ids ⟨ids, c * ids.length⟩ ids.length step).1
        = ids := by
  have hne : ids.isEmpty = false := by
    cases ids with
    | nil => exact absurd rfl h
    | cons a l => rfl
  refine ⟨?_, ?_, ?_, ?_, ?_⟩
  · simp [RoundRobinStrategy.sample_corpus_ids, hne]
  · simp [RoundRobinStrategy.sample_corpus_ids, hne]
  · simp [RoundRobinStrategy.sample_corpus_ids, hne]
  · rfl
  · simp only [RoundRobinStrategy.sample_corpus_ids, hne, Bool.false_eq_true,
      if_false]
    apply List.ext_getElem
    · simp
    · intro i h1 h2
      have hi : i < ids.length := by simpa using h2
      simp only [List.getElem_map, List.getElem_range, cycleSeq]
      have hmod : (ids.length * c + i) % ids.length = i := by
        rw [Nat.mul_add_mod, Nat.mod_eq_of_lt hi]
      rw [mul_comm c ids.length, hmod, List.getD_eq_getElem ids "" hi]

/-- Witness for `C8`: two ids, starting mid-cycle. -/
theorem C8_witness :
    (["a", "b"] : List String) ≠ []
    ∧ ((RoundRobinStrategy.sample_corpus_ids ⟨["a", "b"], 1⟩ 3 5).1
        = (List.range 3).map (fun k => cycleSeq ["a", "b"] (1 + k))
      ∧ (RoundRobinStrategy.sample_corpus_ids ⟨["a", "b"], 1⟩ 3 5).2
          = ⟨["a", "b"], 1 + 3⟩
      ∧ (RoundRobinStrategy.sample_corpus_ids ⟨["a", "b"], 1⟩ 3 5).1.length = 3
      ∧ RoundRobinStrategy.sample_corpus_ids ⟨["a", "b"], 1⟩ 3 5
          = RoundRobinStrategy.sample_corpus_ids ⟨["a", "b"], 1⟩ 3 7
      ∧ (RoundRobinStrategy.sample_corpus_ids
            ⟨["a", "b"], 2 * (["a", "b"] : List String).length⟩
            (["a", "b"] : List String).length 5).1
          = ["a", "b"]) :=
  ⟨by decide, C8 ["a", "b"] 1 3 5 7 2 (by decide)⟩

/-- **C10.**  WeightedSampling construction enforces a fourth check
beyond non-emptiness, not-all-zero weights and not-all-positive
curriculum starts: even when those three pass, it fails with a
configuration error whenever every task has zero weight or a positive
curriculum start (no task is simultaneously weighted and eligible at
step 0). -/
theorem C10 (ids : List String) (ws : List ℚ) (intro : List ℕ)
    (h1 : ids.length = ws.length) (h2 : ids.length = intro.length)
    (h3 : ids ≠ []) (h4 : 0 < ws.sum)
    (h5 : ¬∀ x ∈ intro, 0 < x)
    (h6 : ∀ p ∈ ws.zip intro, p.1 = 0 ∨ 0 < p.2) :
    WeightedSamplingStrategy.init ids ws intro
      = Except.error "Invalid curriculum: no corpus is ready to start in the first step" := by
  unfold WeightedSamplingStrategy.init
  rw [if_neg (not_not_intro h1), if_neg (not_not_intro h2),
    if_neg (fun hh => h3 (List.length_eq_zero.mp hh)),
    if_neg (not_le.mpr h4), if_neg h5, if_pos h6]

/-- Witness for `C10`: weights `[1, 0]`, curriculum starts `[1, 0]`
pass the three documented checks but fail the fourth. -/
theorem C10_witness :
    (["a", "b"] : List String).length = ([1, 0] : List ℚ).length
    ∧ (["a", "b"] : List String).length = ([1, 0] : List ℕ).length
    ∧ (["a", "b"] : List String) ≠ []
    ∧ 0 < ([1, 0] : List ℚ).sum
    ∧ (¬∀ x ∈ ([1, 0] : List ℕ), 0 < x)
    ∧ (∀ p ∈ ([1, 0] : List ℚ).zip ([1, 0] : List ℕ), p.1 = 0 ∨ 0 < p.2)
    ∧ WeightedSamplingStrategy.init ["a", "b"] [1, 0] [1, 0]
        = Except.error "Invalid curriculum: no corpus is ready to start in the first step" :=
  ⟨by decide, by decide, by decide, by norm_num, by decide, by norm_num,
    C10 ["a", "b"] [1, 0] [1, 0] (by decide) (by decide) (by decide)
      (by norm_num) (by decide) (by norm_num)⟩

theorem getD_map_div (l : List ℚ) (c : ℚ) :
    ∀ i, i < l.length → (l.map (· / c)).getD i 0 = l.getD i 0 / c := by
  induction l with
  | nil => intro i h; simp at h
  | cons x xs ih =>
      intro i h
      cases i with
      | zero => simp
      | succ j =>
          simp only [List.map_cons, List.getD_cons_succ]
          exact ih j (by simpa using h)

theorem getD_zipWith_if (step : ℕ) :
    ∀ (ws : List ℚ) (intro : List ℕ) (i : ℕ), i < ws.length → i < intro.length →
      (List.zipWith (fun w t => if t ≤ step then w else 0) ws intro).getD i 0
        = if intro.getD i 0 ≤ step then ws.getD i 0 else 0 := by
  intro ws
  induction ws with
  | nil => intro intro i h _; simp at h
  | cons w tl ih =>
      intro intro i h1 h2
      cases intro with
      | nil => simp at h2
      | cons t ts =>
          cases i with
          | zero => simp
          | succ j =>
              simp only [List.zipWith_cons_cons, List.getD_cons_succ]
              exact ih ts j (by simpa using h1) (by simpa using h2)

theorem invCDF_lt_length_and_pos :
    ∀ (p : List ℚ) (u : ℚ), 0 ≤ u → u < p.sum →
      invCDF p u < p.length ∧ 0 < p.getD (invCDF p u) 0 := by
  intro p
  induction p with
  | nil =>
      intro u h0 hs
      simp only [List.sum_nil] at hs
      exact absurd hs (not_lt.mpr h0)
  | cons w ws ih =>
      intro u h0 hs
      by_cases hw : u < w
      · refine ⟨by simp [invCDF, hw], ?_⟩
        simp only [invCDF, if_pos hw, List.getD_cons_zero]
        exact lt_of_le_of_lt h0 hw
      · have h0' : 0 ≤ u - w := by
          have := not_lt.mp hw
          linarith
        have hs' : u - w < ws.sum := by
          simp only [List.sum_cons] at hs
          linarith
        obtain ⟨hlt, hpos⟩ := ih (u - w) h0' hs'
        refine ⟨?_, ?_⟩
        · simp only [invCDF, if_neg hw, List.length_cons]
          omega
        · simpa [invCDF, if_neg hw, List.getD_cons_succ] using hpos

theorem sum_map_div (l : List ℚ) (c : ℚ) : (l.map (· / c)).sum = l.sum / c := by
  induction l with
  | nil => simp
  | cons x xs ih => simp [ih, add_div]

theorem zipWeights_sum_nonneg (f : ℚ → ℕ → ℚ)
    (hf : ∀ w i, 0 ≤ w → 0 ≤ f w i) :
    ∀ (ws : List ℚ) (intro : List ℕ), (∀ w ∈ ws, 0 ≤ w) →
      0 ≤ (List.zipWith f ws intro).sum := by
  intro ws
  induction ws with
  | nil => intro intro _; simp
  | cons w ws ih =>
      intro intro hw
      cases intro with
      | nil => simp
      | cons i is =>
          simp only [List.zipWith_cons_cons, List.sum_cons]
          have h1 : 0 ≤ f w i := hf w i (hw w (List.mem_cons_self w ws))
          have h2 : 0 ≤ (List.zipWith f ws is).sum :=
            ih is (fun x hx => hw x (List.mem_cons_of_mem w hx))
          linarith

/-- **C7.**  For every step and sample size, WeightedSampling's
`sample_corpus_ids` zeroes the weight of each task whose curriculum
start exceeds the step and renormalizes the rest, so (given the
length invariants its constructor enforces, non-negative weights, and
uniform variates in `[0, 1)`) every returned id is the id of a task
whose `introduce_at_training_step` is at most the step; and the call
fails exactly when the eligible weight sum at that step is zero. -/
theorem C7 (s : WeightedSamplingStrategy) (n step : ℕ) (us : ℕ → ℚ)
    (hlen1 : s.my_weights.length = s.my_corpus_ids.length)
    (hlen2 : s.my_introduce_at_training_step.length = s.my_corpus_ids.length)
    (hw : ∀ w ∈ s.my_weights, 0 ≤ w)
    (hu : ∀ k, 0 ≤ us k ∧ us k < 1) :
    (∀ out, s.sample_corpus_ids n step us = Except.ok out →
      ∀ x ∈ out, ∃ i, i < s.my_corpus_ids.length ∧
        s.my_introduce_at_training_step.getD i 0 ≤ step ∧
        s.my_corpus_ids.getD i "" = x)
    ∧ ((∃ e, s.sample_corpus_ids n step us = Except.error e) ↔
        (s.my_weights.zipWith (fun w intro => if intro ≤ step then w else 0)
          s.my_introduce_at_training_step).sum = 0) := by
  set weights := s.my_weights.zipWith
    (fun w intro => if intro ≤ step then w else 0)
    s.my_introduce_at_training_step with hweights
  have hwlen : weights.length = s.my_corpus_ids.length := by
    rw [hweights, List.length_zipWith, hlen1, hlen2, min_self]
  have hwnonneg : 0 ≤ weights.sum := by
    rw [hweights]
    exact zipWeights_sum_nonneg _
      (fun w i hw0 => by
        show 0 ≤ if i ≤ step then w else 0
        split <;> simp [hw0]) _ _ hw
  by_cases hpos : 0 < weights.sum
  · have hsample : s.sample_corpus_ids n step us
        = Except.ok ((List.range n).map
            (fun k => s.my_corpus_ids.getD
              (invCDF (weights.map (· / weights.sum)) (us k)) "")) := by
      rw [WeightedSamplingStrategy.sample_corpus_ids, ← hweights, if_pos hpos]
    constructor
    · intro out hout x hx
      rw [hsample] at hout
      injection hout with hout
      subst hout
      obtain ⟨k, _, hk⟩ := List.mem_map.mp hx
      set p := weights.map (· / weights.sum) with hp
      have hpsum : p.sum = 1 := by
        rw [hp, sum_map_div, div_self (ne_of_gt hpos)]
      obtain ⟨hlt, hgd⟩ := invCDF_lt_length_and_pos p (us k) (hu k).1
        (by rw [hpsum]; exact (hu k).2)
      set i := invCDF p (us k) with hi
      have hiw : i < weights.length := by
        simpa [hp] using hlt
      have hids : i < s.my_corpus_ids.length := hwlen ▸ hiw
      refine ⟨i, hids, ?_, hk⟩
      -- the drawn index has positive normalized probability, hence a
      -- positive (unzeroed) weight, hence an introduced task
      have hgd' : 0 < weights.getD i 0 / weights.sum := by
        have : p.getD i 0 = weights.getD i 0 / weights.sum := by
          rw [hp]
          exact getD_map_div weights weights.sum i hiw
        rwa [this] at hgd
      have hwgd : 0 < weights.getD i 0 := by
        by_contra hle
        have : weights.getD i 0 / weights.sum ≤ 0 :=
          div_nonpos_of_nonpos_of_nonneg (not_lt.mp hle) hwnonneg
        linarith
      have hii1 : i < s.my_weights.length := by rw [hlen1]; exact hids
      have hii2 : i < s.my_introduce_at_training_step.length := by
        rw [hlen2]; exact hids
      have : weights.getD i 0
          = (if s.my_introduce_at_training_step.getD i 0 ≤ step
              then s.my_weights.getD i 0 else 0) := by
        rw [hweights]
        exact getD_zipWith_if step _ _ i hii1 hii2
      rw [this] at hwgd
      by_contra hnot
      rw [if_neg hnot] at hwgd
      exact lt_irrefl 0 hwgd
    · rw [hsample]
      constructor
      · rintro ⟨e, he⟩
        exact Except.noConfusion he
      · intro hzero
        rw [hzero] at hpos
        exact absurd hpos (lt_irrefl 0)
  · have hsample : s.sample_corpus_ids n step us
        = Except.error "assert sum_w > 0" := by
      rw [WeightedSamplingStrategy.sample_corpus_ids, ← hweights, if_neg hpos]
    refine ⟨?_, ?_⟩
    · intro out hout
      rw [hsample] at hout
      exact Except.noConfusion hout
    · rw [hsample]
      constructor
      · intro _
        exact le_antisymm (not_lt.mp hpos) hwnonneg
      · intro _
        exact ⟨_, rfl⟩

/-- Witness for `C7`: two tasks, the second not yet introduced at step
0; sampling succeeds and only returns introduced tasks. -/
theorem C7_witness :
    (∀ out, WeightedSamplingStrategy.sample_corpus_ids ⟨["a", "b"], [1, 1], [0, 5]⟩
        2 0 (fun _ => 1/2) = Except.ok out →
      ∀ x ∈ out, ∃ i, i < (["a", "b"] : List String).length ∧
        ([0, 5] : List ℕ).getD i 0 ≤ 0 ∧
        (["a", "b"] : List String).getD i "" = x)
    ∧ ((∃ e, WeightedSamplingStrategy.sample_corpus_ids ⟨["a", "b"], [1, 1], [0, 5]⟩
          2 0 (fun _ => 1/2) = Except.error e) ↔
        (([1, 1] : List ℚ).zipWith (fun w intro => if intro ≤ 0 then w else 0)
          ([0, 5] : List ℕ)).sum = 0) :=
  C7 ⟨["a", "b"], [1, 1], [0, 5]⟩ 2 0 (fun _ => 1/2) (by decide) (by decide)
    (by norm_num) (fun k => ⟨by norm_num, by norm_num⟩)

/-- **C9.**  For every pair `(n, l)` valid for the world (and a
strategy that constructs successfully on that device), localizing the
coordinator to `(n, l)` and reading `node_rank` / `local_rank` returns
exactly `(n, l)`; reading either on an un-localized (global)
coordinator raises. -/
theorem C9 (tqm : TQM) (n l : ℕ) (opt : OptModel) (s : Strategy)
    (hn : n < tqm.world_context.n_nodes)
    (hl : tqm.world_context.is_gpu = true → l < tqm.world_context.gpus_per_node)
    (hstrat : tqm.get_strategy n l opt = Except.ok s) :
    (∃ tqm', tqm.global_to_local n l opt = Except.ok tqm'
        ∧ tqm'.node_rank = Except.ok n ∧ tqm'.local_rank = Except.ok l)
    ∧ ∀ g : TQM, g.device_context = none →
        g.node_rank = Except.error "Trying to get node_rank of global TQM"
        ∧ g.local_rank = Except.error "Trying to get local_rank of global TQM" := by
  constructor
  · have hval : (tqm.world_context.global_to_local n l).validate
        tqm.world_context = true := by
      simp only [DeviceContext.validate, WorldContext.global_to_local,
        decide_eq_true_eq]
      exact ⟨trivial, trivial, trivial, hn, hl⟩
    refine ⟨⟨tqm.tasks, tqm.tasks_per_communication_batch, tqm.world_context,
      some (tqm.world_context.global_to_local n l), tqm.components_to_gpus,
      tqm.components_to_groups, some s, tqm.uses_adapters⟩, ?_, rfl, rfl⟩
    unfold TQM.global_to_local
    rw [hstrat]
    unfold TQM.mkChecked
    simp [hval]
  · intro g hg
    constructor <;> simp [TQM.node_rank, TQM.local_rank, hg]

/-- Witness for `C9`: localize the fixture's global coordinator to
node 1, gpu 0. -/
theorem C9_witness :
    (1 < demoGlobalTQM.world_context.n_nodes
      ∧ demoGlobalTQM.get_strategy 1 0 demoOpt
          = Except.ok (Strategy.roundRobin ⟨["c-b"], 0⟩))
    ∧ (∃ tqm', demoGlobalTQM.global_to_local 1 0 demoOpt = Except.ok tqm'
        ∧ tqm'.node_rank = Except.ok 1 ∧ tqm'.local_rank = Except.ok 0)
    ∧ demoGlobalTQM.node_rank
        = Except.error "Trying to get node_rank of global TQM" :=
  ⟨⟨by decide, rfl⟩,
    (C9 demoGlobalTQM 1 0 demoOpt (Strategy.roundRobin ⟨["c-b"], 0⟩)
      (by decide) (by decide) rfl).1,
    ((C9 demoGlobalTQM 1 0 demoOpt (Strategy.roundRobin ⟨["c-b"], 0⟩)
      (by decide) (by decide) rfl).2 demoGlobalTQM rfl).1⟩

theorem syncParam_requires_grad (cnt sm : ℕ → ℚ) (anyS : Bool) (p : GParam)
    (i : ℕ) : (syncParam cnt sm anyS p i).requires_grad = p.requires_grad := by
  unfold syncParam zeroFill
  cases anyS <;> by_cases h : p.has_grad = true <;> simp [h]

theorem requireGrad_syncGo (cnt sm : ℕ → ℚ) (anyS : Bool) :
    ∀ (ps : List GParam) (k i : ℕ), i < (requireGrad ps).length →
      (requireGrad (syncGo cnt sm anyS ps k)).getD i default
        = syncParam cnt sm anyS ((requireGrad ps).getD i default) (k + i) := by
  intro ps
  induction ps with
  | nil => intro k i h; simp [requireGrad] at h
  | cons p ps ih =>
      intro k i h
      by_cases hr : p.requires_grad = true
      · have hrg : requireGrad (p :: ps) = p :: requireGrad ps := by
          simp [requireGrad, List.filter_cons, hr]
        have hrg2 : requireGrad (syncGo cnt sm anyS (p :: ps) k)
            = syncParam cnt sm anyS p k
              :: requireGrad (syncGo cnt sm anyS ps (k + 1)) := by
          simp [syncGo, hr, requireGrad, List.filter_cons,
            syncParam_requires_grad]
        rw [hrg2, hrg]
        cases i with
        | zero => simp
        | succ j =>
            rw [hrg] at h
            simp only [List.getD_cons_succ]
            rw [ih (k + 1) j (by simpa using h)]
            congr 1
            omega
      · have hrg : requireGrad (p :: ps) = requireGrad ps := by
          simp [requireGrad, List.filter_cons, hr]
        have hrg2 : requireGrad (syncGo cnt sm anyS (p :: ps) k)
            = requireGrad (syncGo cnt sm anyS ps k) := by
          simp [syncGo, hr, requireGrad, List.filter_cons]
        rw [hrg2, hrg]
        rw [hrg] at h
        exact ih k i h

theorem sum_eq_zero_all (l : List ℚ) (hnn : ∀ x ∈ l, 0 ≤ x)
    (hz : l.sum = 0) : ∀ x ∈ l, x = 0 := by
  induction l with
  | nil => intro x hx; simp at hx
  | cons a l ih =>
      intro x hx
      have ha : 0 ≤ a := hnn a (List.mem_cons_self a l)
      have hl : 0 ≤ l.sum :=
        List.sum_nonneg (fun y hy => hnn y (List.mem_cons_of_mem a hy))
      simp only [List.sum_cons] at hz
      have ha0 : a = 0 := by linarith
      have hl0 : l.sum = 0 := by linarith
      rcases List.mem_cons.mp hx with hxa | hxl
      · rw [hxa, ha0]
      · exact ih (fun y hy => hnn y (List.mem_cons_of_mem a hy)) hl0 x hxl

theorem countAt_zero_hasgrad (devs : List (List GParam)) (i : ℕ)
    (h : countAt devs i = 0) :
    ∀ dev ∈ devs, ((requireGrad dev).getD i default).has_grad = false := by
  intro dev hdev
  have hmem : readyBit ((requireGrad dev).getD i default)
      ∈ devs.map (fun dev => readyBit ((requireGrad dev).getD i default)) :=
    List.mem_map_of_mem _ hdev
  have hnn : ∀ x ∈ devs.map
      (fun dev => readyBit ((requireGrad dev).getD i default)), 0 ≤ x := by
    intro x hx
    obtain ⟨dev', _, hdev'⟩ := List.mem_map.mp hx
    rw [← hdev']
    unfold readyBit
    split <;> norm_num
  have := sum_eq_zero_all _ hnn h _ hmem
  unfold readyBit at this
  by_contra hcon
  rw [if_pos (by simpa using hcon)] at this
  exact one_ne_zero this

theorem countAt_eq_length (devs : List (List GParam)) (i : ℕ) :
    countAt devs i = ((devs.filter
      (fun dev => ((requireGrad dev).getD i default).has_grad)).length : ℚ) := by
  induction devs with
  | nil => simp [countAt]
  | cons d ds ih =>
      unfold countAt at ih ⊢
      rw [List.map_cons, List.sum_cons, ih]
      by_cases h : ((requireGrad d).getD i default).has_grad = true
      · rw [List.filter_cons_of_pos (by simpa using h)]
        simp only [readyBit, if_pos h, List.length_cons]
        push_cast
        ring
      · rw [List.filter_cons_of_neg (by simpa using h)]
        simp only [readyBit, if_neg h]
        ring

theorem sumAt_eq_sumReal (devs : List (List GParam)) (i : ℕ)
    (hzero : ∀ dev ∈ devs, ∀ p ∈ dev, p.has_grad = false → p.grad.getD 0 = 0)
    (hlen : ∀ dev ∈ devs, i < (requireGrad dev).length) :
    sumAt devs i = sumRealAt devs i := by
  unfold sumAt sumRealAt
  congr 1
  apply List.map_congr_left
  intro dev hdev
  have hi := hlen dev hdev
  have hmem : (requireGrad dev).getD i default ∈ dev := by
    have h1 : (requireGrad dev).getD i default ∈ requireGrad dev := by
      rw [List.getD_eq_getElem _ _ hi]
      exact List.getElem_mem hi
    exact List.mem_of_mem_filter h1
  by_cases h : ((requireGrad dev).getD i default).has_grad = true
  · simp only [gradVal, zeroFill, if_pos h, h, if_true]
  · have hb : ((requireGrad dev).getD i default).has_grad = false := by
      simpa using h
    simp only [gradVal, zeroFill, hb, Bool.false_eq_true, if_false,
      Option.getD_some, hzero dev hdev _ hmem hb]

theorem only_ready_getD (devs : List (List GParam)) (d : ℕ)
    (hd : d < devs.length) :
    (only_ready_reduce_and_rescale_grads devs).getD d []
      = syncDevice (countAt devs) (sumAt devs) devs[d] := by
  unfold only_ready_reduce_and_rescale_grads
  rw [List.getD_eq_getElem _ _ (by simpa using hd), List.getElem_map]

/-- **C1.**  For every communication group of at least two devices all
running `only_ready_reduce_and_rescale_grads` in lockstep on
structurally matching parameter lists (same number of `require_grad`
parameters), with zero-filled buffers standing in for devices that
produced no real gradient, the post-sync gradient of each parameter
with positive participation count equals, on every device, the sum of
the real gradients contributed for that parameter divided by the
number of devices that contributed one — the participation count,
which the second conjunct identifies with the number of contributing
devices — even when the contributing subset differs
parameter-by-parameter. -/
theorem C1 (devs : List (List GParam)) (nRG : ℕ)
    (hsize : 2 ≤ devs.length)
    (hlen : ∀ dev ∈ devs, (requireGrad dev).length = nRG)
    (hzero : ∀ dev ∈ devs, ∀ p ∈ dev, p.has_grad = false → p.grad.getD 0 = 0)
    (d i : ℕ) (hd : d < devs.length) (hi : i < nRG)
    (hcnt : 0 < countAt devs i) :
    (List.getD
        (requireGrad ((only_ready_reduce_and_rescale_grads devs).getD d []))
        i default).grad
      = some (sumRealAt devs i / countAt devs i)
    ∧ countAt devs i
        = ((devs.filter
            (fun dev => ((requireGrad dev).getD i default).has_grad)).length : ℚ) := by
  refine ⟨?_, countAt_eq_length devs i⟩
  rw [only_ready_getD devs d hd]
  have hdev : devs[d] ∈ devs := List.getElem_mem hd
  have hlen' : (requireGrad devs[d]).length = nRG := hlen _ hdev
  simp only [syncDevice]
  have hne : (requireGrad devs[d]).isEmpty = false := by
    cases hrg : requireGrad devs[d] with
    | nil => rw [hrg] at hlen'; simp at hlen'; omega
    | cons a l => rfl
  rw [hne]
  simp only [Bool.false_eq_true, if_false]
  have hany : (!(survivors (countAt devs)
      (requireGrad devs[d]).length).isEmpty) = true := by
    rw [hlen']
    have hmem : i ∈ survivors (countAt devs) nRG := by
      unfold survivors
      rw [List.mem_filter]
      exact ⟨List.mem_range.mpr hi, by simpa using hcnt⟩
    cases hs : survivors (countAt devs) nRG with
    | nil => rw [hs] at hmem; simp at hmem
    | cons a l => rfl
  rw [hany, requireGrad_syncGo _ _ _ devs[d] 0 i (by rw [hlen']; exact hi)]
  unfold syncParam
  simp only [if_true, Nat.zero_add]
  rw [if_pos hcnt,
    sumAt_eq_sumReal devs i hzero (fun dev hdev' => by
      rw [hlen dev hdev']; exact hi)]

/-- Witness for `C1`: two devices, one real gradient `2` on device 0,
device 1 not ready (empty buffer, zero-filled). -/
theorem C1_witness :
    (2 ≤ ([[⟨true, true, some 2⟩], [⟨true, false, none⟩]]
        : List (List GParam)).length)
    ∧ 0 < countAt [[⟨true, true, some 2⟩], [⟨true, false, none⟩]] 0
    ∧ (List.getD
        (requireGrad ((only_ready_reduce_and_rescale_grads
          [[⟨true, true, some 2⟩], [⟨true, false, none⟩]]).getD 0 []))
        0 default).grad
      = some (sumRealAt [[⟨true, true, some 2⟩], [⟨true, false, none⟩]] 0
          / countAt [[⟨true, true, some 2⟩], [⟨true, false, none⟩]] 0) :=
  ⟨by decide,
    by norm_num [countAt, requireGrad, readyBit],
    (C1 [[⟨true, true, some 2⟩], [⟨true, false, none⟩]] 1 (by decide)
      (by decide) (by decide) 0 0 (by decide) (by decide)
      (by norm_num [countAt, requireGrad, readyBit])).1⟩

/-- Behaviour of the synchronizer at a parameter whose participation
count is zero: it is not among the surviving (communicated) indices,
its gradient value is preserved (a missing buffer having been
zero-filled at entry), and its readiness flag becomes true exactly when
some other parameter of the component survives. -/
theorem syncAtZeroCount (devs : List (List GParam)) (nRG : ℕ)
    (hlen : ∀ dev ∈ devs, (requireGrad dev).length = nRG)
    (d i : ℕ) (hd : d < devs.length) (hi : i < nRG)
    (hcnt : countAt devs i = 0) :
    (List.getD (requireGrad ((only_ready_reduce_and_rescale_grads devs).getD d []))
        i default).requires_grad
      = (List.getD (requireGrad (devs.getD d [])) i default).requires_grad
    ∧ (List.getD (requireGrad ((only_ready_reduce_and_rescale_grads devs).getD d []))
        i default).grad
      = some ((List.getD (requireGrad (devs.getD d [])) i default).grad.getD 0)
    ∧ (List.getD (requireGrad ((only_ready_reduce_and_rescale_grads devs).getD d []))
        i default).has_grad
      = (!(survivors (countAt devs) nRG).isEmpty
          || (List.getD (requireGrad (devs.getD d [])) i default).has_grad)
    ∧ i ∉ survivors (countAt devs) nRG := by
  have hnotmem : i ∉ survivors (countAt devs) nRG := by
    unfold survivors
    rw [List.mem_filter]
    rintro ⟨-, hdec⟩
    rw [hcnt] at hdec
    simp at hdec
  have hgetD : devs.getD d [] = devs[d] := List.getD_eq_getElem _ _ hd
  rw [only_ready_getD devs d hd, hgetD]
  have hdev : devs[d] ∈ devs := List.getElem_mem hd
  have hlen' : (requireGrad devs[d]).length = nRG := hlen _ hdev
  simp only [syncDevice]
  have hne : (requireGrad devs[d]).isEmpty = false := by
    cases hrg : requireGrad devs[d] with
    | nil => rw [hrg] at hlen'; simp at hlen'; omega
    | cons a l => rfl
  rw [hne]
  simp only [Bool.false_eq_true, if_false]
  rw [hlen', requireGrad_syncGo _ _ _ devs[d] 0 i (by rw [hlen']; exact hi)]
  have hpf : (List.getD (requireGrad devs[d]) i default).has_grad = false :=
    countAt_zero_hasgrad devs i hcnt devs[d] hdev
  unfold syncParam zeroFill
  rw [hpf]
  simp only [Bool.false_eq_true, if_false, Nat.zero_add]
  refine ⟨?_, ?_, ?_, hnotmem⟩ <;>
    cases hA : (!(survivors (countAt devs) nRG).isEmpty) <;>
      simp [hcnt]

/-- **C4, counterexample.**  The claim says a parameter with
participation count 0 has its state (gradient buffer and readiness
flag) left unmutated even when other parameters of the component
participate.  With two devices, parameter 0 ready on both and
parameter 1 ready on neither, parameter 1's count is 0, its initial
readiness flag is false, yet after the call its readiness flag is true
(the code sets `has_grad` on every `require_grad` parameter once any
parameter survives). -/
theorem C4_counterexample :
    countAt [[⟨true, true, some 1⟩, ⟨true, false, some 5⟩],
      [⟨true, true, some 3⟩, ⟨true, false, some 5⟩]] 1 = 0
    ∧ (List.getD (requireGrad (List.getD
        [[⟨true, true, some 1⟩, ⟨true, false, some 5⟩],
          [⟨true, true, some 3⟩, ⟨true, false, some 5⟩]] 0 [])) 1 default).has_grad
      = false
    ∧ (List.getD (requireGrad ((only_ready_reduce_and_rescale_grads
        [[⟨true, true, some 1⟩, ⟨true, false, some 5⟩],
          [⟨true, true, some 3⟩, ⟨true, false, some 5⟩]]).getD 0 []))
        1 default).has_grad
      = true := by
  have hcnt1 : countAt [[⟨true, true, some 1⟩, ⟨true, false, some 5⟩],
      [⟨true, true, some 3⟩, ⟨true, false, some 5⟩]] 1 = 0 := by
    norm_num [countAt, requireGrad, readyBit]
  have h := syncAtZeroCount
    [[⟨true, true, some 1⟩, ⟨true, false, some 5⟩],
      [⟨true, true, some 3⟩, ⟨true, false, some 5⟩]] 2
    (by decide) 0 1 (by decide) (by decide) hcnt1
  have hmem : 0 ∈ survivors (countAt
      [[⟨true, true, some 1⟩, ⟨true, false, some 5⟩],
        [⟨true, true, some 3⟩, ⟨true, false, some 5⟩]]) 2 := by
    unfold survivors
    rw [List.mem_filter]
    refine ⟨by decide, ?_⟩
    have : (0 : ℚ) < countAt
        [[⟨true, true, some 1⟩, ⟨true, false, some 5⟩],
          [⟨true, true, some 3⟩, ⟨true, false, some 5⟩]] 0 := by
      norm_num [countAt, requireGrad, readyBit]
    simpa using this
  have hne : (survivors (countAt
      [[⟨true, true, some 1⟩, ⟨true, false, some 5⟩],
        [⟨true, true, some 3⟩, ⟨true, false, some 5⟩]]) 2).isEmpty = false := by
    cases hs : survivors (countAt
        [[⟨true, true, some 1⟩, ⟨true, false, some 5⟩],
          [⟨true, true, some 3⟩, ⟨true, false, some 5⟩]]) 2 with
    | nil => rw [hs] at hmem; simp at hmem
    | cons a l => rfl
  refine ⟨hcnt1, by decide, ?_⟩
  have h3 := h.2.2.1
  rw [hne] at h3
  simpa using h3

/-- **C4, amended.**  Every parameter whose all-reduced participation
count is 0 is excluded from the gradient all-reduce (it is not among
the surviving communicated indices) and its gradient value is
unchanged, apart from a missing buffer being zero-filled at entry;
however, its readiness flag is set to true whenever any parameter of
the component participates (and is unchanged otherwise). -/
theorem C4_amended (devs : List (List GParam)) (nRG : ℕ)
    (hlen : ∀ dev ∈ devs, (requireGrad dev).length = nRG)
    (d i : ℕ) (hd : d < devs.length) (hi : i < nRG)
    (hcnt : countAt devs i = 0) :
    (List.getD (requireGrad ((only_ready_reduce_and_rescale_grads devs).getD d []))
        i default).requires_grad
      = (List.getD (requireGrad (devs.getD d [])) i default).requires_grad
    ∧ (List.getD (requireGrad ((only_ready_reduce_and_rescale_grads devs).getD d []))
        i default).grad
      = some ((List.getD (requireGrad (devs.getD d [])) i default).grad.getD 0)
    ∧ (List.getD (requireGrad ((only_ready_reduce_and_rescale_grads devs).getD d []))
        i default).has_grad
      = (!(survivors (countAt devs) nRG).isEmpty
          || (List.getD (requireGrad (devs.getD d [])) i default).has_grad)
    ∧ i ∉ survivors (countAt devs) nRG :=
  syncAtZeroCount devs nRG hlen d i hd hi hcnt

/-- Witness for `C4_amended` on the two-device fixture of the
counterexample. -/
theorem C4_amended_witness :
    countAt [[⟨true, true, some 1⟩, ⟨true, false, some 5⟩],
      [⟨true, true, some 3⟩, ⟨true, false, some 5⟩]] 1 = 0
    ∧ ((List.getD (requireGrad ((only_ready_reduce_and_rescale_grads
          [[⟨true, true, some 1⟩, ⟨true, false, some 5⟩],
            [⟨true, true, some 3⟩, ⟨true, false, some 5⟩]]).getD 0 []))
          1 default).grad
        = some ((List.getD (requireGrad (List.getD
            [[⟨true, true, some 1⟩, ⟨true, false, some 5⟩],
              [⟨true, true, some 3⟩, ⟨true, false, some 5⟩]] 0 []))
            1 default).grad.getD 0)
      ∧ 1 ∉ survivors (countAt
          [[⟨true, true, some 1⟩, ⟨true, false, some 5⟩],
            [⟨true, true, some 3⟩, ⟨true, false, some 5⟩]]) 2) :=
  ⟨by norm_num [countAt, requireGrad, readyBit],
    (C4_amended [[⟨true, true, some 1⟩, ⟨true, false, some 5⟩],
        [⟨true, true, some 3⟩, ⟨true, false, some 5⟩]] 2
      (by decide) 0 1 (by decide) (by decide)
      (by norm_num [countAt, requireGrad, readyBit])).2.1,
    (C4_amended [[⟨true, true, some 1⟩, ⟨true, false, some 5⟩],
        [⟨true, true, some 3⟩, ⟨true, false, some 5⟩]] 2
      (by decide) 0 1 (by decide) (by decide)
      (by norm_num [countAt, requireGrad, readyBit])).2.2.2⟩

theorem foldl_invariant {α β : Type*} (P : β → Prop) (f : β → α → β)
    (h : ∀ b a, P b → P (f b a)) :
    ∀ (l : List α) (b : β), P b → P (l.foldl f b) := by
  intro l
  induction l with
  | nil => intro b hb; exact hb
  | cons x xs ih => intro b hb; exact ih (f b x) (h b x hb)

theorem addKey_keys (m : List (CKey × Finset ℕ)) (k : CKey) (r : ℕ) :
    (addKey m k r).map Prod.fst
      = if k ∈ m.map Prod.fst then m.map Prod.fst
        else m.map Prod.fst ++ [k] := by
  induction m with
  | nil => simp [addKey]
  | cons kv m ih =>
      obtain ⟨k', s⟩ := kv
      by_cases h : k' = k
      · subst h
        simp [addKey]
      · simp only [addKey, if_neg h, List.map_cons, ih]
        by_cases hk : k ∈ m.map Prod.fst
        · rw [if_pos hk, if_pos (List.mem_cons_of_mem _ hk)]
        · rw [if_neg hk, if_neg (by
            intro hc
            rcases List.mem_cons.mp hc with h1 | h1
            · exact h h1.symm
            · exact hk h1)]
          rfl

theorem addKey_nodup (m : List (CKey × Finset ℕ)) (k : CKey) (r : ℕ)
    (h : (m.map Prod.fst).Nodup) : ((addKey m k r).map Prod.fst).Nodup := by
  rw [addKey_keys]
  split_ifs with hk
  · exact h
  · simp [List.nodup_append, h, hk]

theorem componentsToGpus_nodup (tasks : List TaskSpecs) (nn gg : ℕ) :
    ((componentsToGpus tasks nn gg).map Prod.fst).Nodup := by
  unfold componentsToGpus
  apply foldl_invariant
    (fun m : List (CKey × Finset ℕ) => (m.map Prod.fst).Nodup)
  · intro b a hb
    apply foldl_invariant
      (fun m : List (CKey × Finset ℕ) => (m.map Prod.fst).Nodup)
    · intro b' a' hb'
      apply foldl_invariant
        (fun m : List (CKey × Finset ℕ) => (m.map Prod.fst).Nodup)
      · intro b'' t hb''
        unfold addTask
        apply foldl_invariant
          (fun m : List (CKey × Finset ℕ) => (m.map Prod.fst).Nodup)
        · intro m kk hm
          exact addKey_nodup _ _ _ hm
        · exact hb''
      · exact hb'
    · exact hb
  · simp

theorem componentsToGroups_eq (gpus : List (CKey × Finset ℕ)) :
    componentsToGroups gpus
      = (gpus.filterMap (fun kv => if 2 ≤ kv.2.card
            then some (kv.1, ((kv.2.sort (· ≤ ·)).headD 0, kv.2.sort (· ≤ ·)))
            else none),
         gpus.filterMap (fun kv => if 2 ≤ kv.2.card
            then some (kv.1, kv.2.sort (· ≤ ·)) else none)) := by
  suffices h : ∀ acc : List (CKey × (ℕ × List ℕ)) × List (CKey × List ℕ),
      gpus.foldl (fun acc kv =>
        if 2 ≤ kv.2.card then
          let sorted := kv.2.sort (· ≤ ·)
          let min_rank := sorted.headD 0
          (acc.1 ++ [(kv.1, (min_rank, sorted))], acc.2 ++ [(kv.1, sorted)])
        else acc) acc
      = (acc.1 ++ gpus.filterMap (fun kv => if 2 ≤ kv.2.card
            then some (kv.1, ((kv.2.sort (· ≤ ·)).headD 0, kv.2.sort (· ≤ ·)))
            else none),
         acc.2 ++ gpus.filterMap (fun kv => if 2 ≤ kv.2.card
            then some (kv.1, kv.2.sort (· ≤ ·)) else none)) by
    simpa [componentsToGroups] using h ([], [])
  induction gpus with
  | nil => intro acc; simp
  | cons kv rest ih =>
      intro acc
      rw [List.foldl_cons]
      by_cases h2 : 2 ≤ kv.2.card
      · rw [if_pos h2, ih]
        simp [h2]
      · rw [if_neg h2, ih]
        simp [h2]

theorem filterMap_fst_sublist {β γ : Type*} (f : (CKey × β) → Option (CKey × γ))
    (hf : ∀ kv x, f kv = some x → x.1 = kv.1) :
    ∀ l : List (CKey × β),
      ((l.filterMap f).map Prod.fst).Sublist (l.map Prod.fst) := by
  intro l
  induction l with
  | nil => simp
  | cons kv rest ih =>
      simp only [List.filterMap_cons, List.map_cons]
      cases hfk : f kv with
      | none => exact ih.cons kv.1
      | some x =>
          simp only [List.map_cons]
          rw [hf kv x hfk]
          exact ih.cons₂ kv.1

theorem assoc_filter_eq {β : Type*} :
    ∀ (l : List (CKey × β)) (k : CKey) (v : β),
      (l.map Prod.fst).Nodup → (k, v) ∈ l →
      l.filter (fun e => e.1 = k) = [(k, v)] := by
  intro l
  induction l with
  | nil => intro k v _ hm; simp at hm
  | cons e rest ih =>
      intro k v hnd hm
      simp only [List.map_cons, List.nodup_cons] at hnd
      rcases List.mem_cons.mp hm with he | hrest
      · subst he
        rw [List.filter_cons_of_pos (by simp)]
        have hrest0 : rest.filter (fun e => decide (e.1 = k)) = [] := by
          rw [List.filter_eq_nil_iff]
          intro a ha
          simp only [decide_eq_true_eq]
          intro hak
          have hmem2 : k ∈ rest.map Prod.fst := by
            rw [← hak]
            exact List.mem_map_of_mem Prod.fst ha
          exact hnd.1 hmem2
        rw [hrest0]
      · have hne : e.1 ≠ k := by
          intro hek
          apply hnd.1
          rw [hek]
          exact (List.mem_map_of_mem Prod.fst hrest : k ∈ _)
        rw [List.filter_cons_of_neg (by simp [hne])]
        exact ih k v hnd.2 hrest

theorem assoc_mem_unique {β : Type*} (l : List (CKey × β)) (k : CKey)
    (a b : β) (hnd : (l.map Prod.fst).Nodup)
    (ha : (k, a) ∈ l) (hb : (k, b) ∈ l) : a = b := by
  have h1 := assoc_filter_eq l k a hnd ha
  have h2 : (k, b) ∈ l.filter (fun e => e.1 = k) :=
    List.mem_filter.mpr ⟨hb, by simp⟩
  rw [h1] at h2
  have := List.mem_singleton.mp h2
  exact (Prod.mk.injEq _ _ _ _ ▸ this).2.symm

theorem sort_headD_min (s : Finset ℕ) (h : 2 ≤ s.card) :
    (s.sort (· ≤ ·)).headD 0 ∈ s ∧ ∀ r ∈ s, (s.sort (· ≤ ·)).headD 0 ≤ r := by
  have hlen : (s.sort (· ≤ ·)).length = s.card := Finset.length_sort _
  cases hs : s.sort (· ≤ ·) with
  | nil => rw [hs] at hlen; simp at hlen; omega
  | cons a l =>
      constructor
      · have ha : a ∈ s.sort (· ≤ ·) := by
          rw [hs]; exact List.mem_cons_self a l
        simpa using (Finset.mem_sort _).mp ha
      · intro r hr
        have hrl : r ∈ a :: l := by
          rw [← hs]; exact (Finset.mem_sort _).mpr hr
        have hsort : List.Sorted (· ≤ ·) (a :: l) := by
          rw [← hs]; exact Finset.sort_sorted _ _
        simp only [List.headD_cons]
        rcases List.mem_cons.mp hrl with h1 | h1
        · rw [h1]
        · exact (List.sorted_cons.mp hsort).1 r h1

/-- **C2.**  In the maps built by `create_all_distributed_groups`, a
component key whose device set is a singleton never appears in the
group map; a key on `k ≥ 2` devices appears exactly once, the group
factory is invoked exactly once for it with the sorted list of its
global ranks, and the stored owner (head of the sorted rank list) is
the numerically smallest participating global rank. -/
theorem C2 (tasks : List TaskSpecs) (world : WorldContext) (k : CKey)
    (s : Finset ℕ)
    (hmem : (k, s) ∈ (create_all_distributed_groups tasks world).1) :
    (s.card = 1 →
      ∀ v, (k, v) ∉ (create_all_distributed_groups tasks world).2.1)
    ∧ (2 ≤ s.card →
        ((create_all_distributed_groups tasks world).2.1.filter
            (fun e => e.1 = k))
          = [(k, ((s.sort (· ≤ ·)).headD 0, s.sort (· ≤ ·)))]
        ∧ ((create_all_distributed_groups tasks world).2.2.filter
            (fun e => e.1 = k))
          = [(k, s.sort (· ≤ ·))]
        ∧ (s.sort (· ≤ ·)).headD 0 ∈ s
        ∧ ∀ r ∈ s, (s.sort (· ≤ ·)).headD 0 ≤ r) := by
  by_cases hdist : world.is_distributed = true
  · have hunf : create_all_distributed_groups tasks world
        = (componentsToGpus tasks world.n_nodes world.gpus_per_node,
           (componentsToGroups (componentsToGpus tasks world.n_nodes
             world.gpus_per_node)).1,
           (componentsToGroups (componentsToGpus tasks world.n_nodes
             world.gpus_per_node)).2) := by
      simp only [create_all_distributed_groups, hdist, not_true_eq_false,
        if_false]
    rw [hunf] at hmem ⊢
    rw [componentsToGroups_eq] at hmem ⊢
    simp only at hmem ⊢
    set gpus := componentsToGpus tasks world.n_nodes world.gpus_per_node
      with hgpus
    have hnd : (gpus.map Prod.fst).Nodup := componentsToGpus_nodup _ _ _
    constructor
    · intro hcard1 v hv
      obtain ⟨kv, hkv, hfkv⟩ := List.mem_filterMap.mp hv
      by_cases h2 : 2 ≤ kv.2.card
      · rw [if_pos h2] at hfkv
        injection hfkv with hfkv
        have hk1 : kv.1 = k := congrArg Prod.fst hfkv
        have hseq : s = kv.2 := by
          apply assoc_mem_unique gpus k s kv.2 hnd hmem
          rw [← hk1]
          exact hkv
        rw [← hseq] at h2
        omega
      · rw [if_neg h2] at hfkv
        exact Option.noConfusion hfkv
    · intro h2
      have hf1 : ∀ (kv : CKey × Finset ℕ) (x : CKey × ℕ × List ℕ),
          (if 2 ≤ kv.2.card
            then some (kv.1, ((kv.2.sort (· ≤ ·)).headD 0, kv.2.sort (· ≤ ·)))
            else none) = some x → x.1 = kv.1 := by
        intro kv x hx
        split at hx
        · cases hx; rfl
        · exact Option.noConfusion hx
      have hf2 : ∀ (kv : CKey × Finset ℕ) (x : CKey × List ℕ),
          (if 2 ≤ kv.2.card then some (kv.1, kv.2.sort (· ≤ ·)) else none)
            = some x → x.1 = kv.1 := by
        intro kv x hx
        split at hx
        · cases hx; rfl
        · exact Option.noConfusion hx
      refine ⟨?_, ?_, (sort_headD_min s h2).1, (sort_headD_min s h2).2⟩
      · have hx : (k, ((s.sort (· ≤ ·)).headD 0, s.sort (· ≤ ·)))
            ∈ gpus.filterMap (fun kv => if 2 ≤ kv.2.card
              then some (kv.1, ((kv.2.sort (· ≤ ·)).headD 0,
                kv.2.sort (· ≤ ·)))
              else none) :=
          List.mem_filterMap.mpr ⟨(k, s), hmem, by rw [if_pos h2]⟩
        exact assoc_filter_eq _ k _
          ((filterMap_fst_sublist _ hf1 gpus).nodup hnd) hx
      · have hx : (k, s.sort (· ≤ ·))
            ∈ gpus.filterMap (fun kv => if 2 ≤ kv.2.card
              then some (kv.1, kv.2.sort (· ≤ ·)) else none) :=
          List.mem_filterMap.mpr ⟨(k, s), hmem, by rw [if_pos h2]⟩
        exact assoc_filter_eq _ k _
          ((filterMap_fst_sublist _ hf2 gpus).nodup hnd) hx
  · have : create_all_distributed_groups tasks world = ([], [], []) := by
      simp [create_all_distributed_groups, hdist]
    rw [this] at hmem
    simp at hmem

/-- Witness for `C2`: in the two-task fixture the encoder component
`x` lives on global ranks 0 and 1; the factory trace holds exactly one
invocation for it, with the sorted rank list. -/
theorem C2_witness :
    ((CKey.encoder 0 "x", ({0, 1} : Finset ℕ))
        ∈ (create_all_distributed_groups demoTasks demoWorld).1)
    ∧ 2 ≤ ({0, 1} : Finset ℕ).card
    ∧ ((create_all_distributed_groups demoTasks demoWorld).2.2.filter
        (fun e => e.1 = CKey.encoder 0 "x"))
      = [(CKey.encoder 0 "x", ({0, 1} : Finset ℕ).sort (· ≤ ·))]
    ∧ (({0, 1} : Finset ℕ).sort (· ≤ ·)).headD 0 ∈ ({0, 1} : Finset ℕ) :=
  ⟨by decide, by decide,
    ((C2 demoTasks demoWorld (CKey.encoder 0 "x") {0, 1} (by decide)).2
      (by decide)).2.1,
    ((C2 demoTasks demoWorld (CKey.encoder 0 "x") {0, 1} (by decide)).2
      (by decide)).2.2.1⟩

theorem gdg_fold_eq (gpus : List (CKey × Finset ℕ))
    (groups : List (CKey × (ℕ × List ℕ))) (rank : ℕ) :
    ∀ acc, gpus.foldl (fun acc kv =>
        if rank ∈ kv.2 then
          match groups.lookup kv.1 with
          | some g => acc ++ [(kv.1, g)]
          | none => acc
        else acc) acc
      = acc ++ gpus.filterMap (fun kv =>
          if rank ∈ kv.2 then (groups.lookup kv.1).map (fun g => (kv.1, g))
          else none) := by
  induction gpus with
  | nil => intro acc; simp
  | cons kv rest ih =>
      intro acc
      by_cases hr : rank ∈ kv.2 <;>
        cases hlk : groups.lookup kv.1 <;>
          simp [List.foldl_cons, ih, hr, hlk]

/-- **C5, counterexample.**  The claim says calling the per-device
group query before the maps have been built is an error.  On a
localized coordinator whose `components_to_groups` is still `None`, the
call succeeds (it lazily builds the maps itself). -/
theorem C5_counterexample :
    demoTQM.components_to_groups = none
    ∧ (TQM.get_distributed_groups demoTQM).isOk = true :=
  ⟨rfl, rfl⟩

/-- **C5, amended.**  Calling `get_distributed_groups` before
`create_all_distributed_groups` has run is not an error on a localized
coordinator: the maps are built lazily (only the un-localized
coordinator errors, through its `global_rank`).  Once the maps exist,
the query returns exactly those group-map entries whose device set
contains this device's global rank. -/
theorem C5_amended (tqm : TQM) (dc : DeviceContext)
    (gpus : List (CKey × Finset ℕ)) (groups : List (CKey × (ℕ × List ℕ)))
    (hdc : tqm.device_context = some dc)
    (hg : tqm.components_to_gpus = some gpus)
    (hgr : tqm.components_to_groups = some groups) :
    ∃ res, tqm.get_distributed_groups = Except.ok (res, tqm)
      ∧ ∀ (k : CKey) (v : ℕ × List ℕ),
          ((k, v) ∈ res ↔
            (∃ s, (k, s) ∈ gpus ∧
              dc.node_rank * tqm.world_context.gpus_per_node + dc.local_rank ∈ s)
            ∧ groups.lookup k = some v) := by
  have hnone : tqm.components_to_groups.isNone = false := by rw [hgr]; rfl
  refine ⟨gpus.filterMap (fun kv =>
      if dc.node_rank * tqm.world_context.gpus_per_node + dc.local_rank ∈ kv.2
      then (groups.lookup kv.1).map (fun g => (kv.1, g)) else none), ?_, ?_⟩
  · simp only [TQM.get_distributed_groups, hgr, hdc, hg, Option.isNone_some,
      Bool.false_eq_true, if_false]
    rw [gdg_fold_eq, List.nil_append]
  · intro k v
    rw [List.mem_filterMap]
    constructor
    · rintro ⟨kv, hkv, hf⟩
      by_cases hr : dc.node_rank * tqm.world_context.gpus_per_node
          + dc.local_rank ∈ kv.2
      · rw [if_pos hr] at hf
        cases hlk : groups.lookup kv.1 with
        | none => rw [hlk] at hf; exact Option.noConfusion hf
        | some g =>
            rw [hlk] at hf
            simp only [Option.map_some'] at hf
            injection hf with hf
            have hk1 : kv.1 = k := congrArg Prod.fst hf
            have hg1 : g = v := congrArg Prod.snd hf
            refine ⟨⟨kv.2, ?_, hr⟩, ?_⟩
            · rw [← hk1]; exact hkv
            · rw [← hk1, hlk, hg1]
      · rw [if_neg hr] at hf
        exact Option.noConfusion hf
    · rintro ⟨⟨s, hs, hrs⟩, hlk⟩
      exact ⟨(k, s), hs, by simp [hrs, hlk]⟩

/-- Witness for `C5_amended`: the fixture coordinator after building
its maps. -/
theorem C5_amended_witness :
    demoTQM.create_all.device_context = some (demoWorld.global_to_local 0 0)
    ∧ (∃ res, demoTQM.create_all.get_distributed_groups
          = Except.ok (res, demoTQM.create_all)
        ∧ ∀ (k : CKey) (v : ℕ × List ℕ),
            ((k, v) ∈ res ↔
              (∃ s, (k, s) ∈ (create_all_distributed_groups demoTasks demoWorld).1
                ∧ (demoWorld.global_to_local 0 0).node_rank
                    * demoTQM.create_all.world_context.gpus_per_node
                    + (demoWorld.global_to_local 0 0).local_rank ∈ s)
              ∧ ((create_all_distributed_groups demoTasks demoWorld).2.1).lookup k
                  = some v)) :=
  ⟨rfl, C5_amended demoTQM.create_all (demoWorld.global_to_local 0 0)
    (create_all_distributed_groups demoTasks demoWorld).1
    (create_all_distributed_groups demoTasks demoWorld).2.1 rfl rfl rfl⟩

theorem addOther_length (other : ℕ → ℚ) :
    ∀ (off : ℕ) (t : List ℚ), (addOther other off t).length = t.length := by
  intro off t
  induction t generalizing off with
  | nil => rfl
  | cons x xs ih => simp [addOther, ih]

theorem otherSeg_length (other : ℕ → ℚ) (off n : ℕ) :
    (otherSeg other off n).length = n := by
  simp [otherSeg]

theorem otherSeg_succ (other : ℕ → ℚ) (off n : ℕ) :
    otherSeg other off (n + 1) = other off :: otherSeg other (off + 1) n := by
  unfold otherSeg
  rw [List.range_succ_eq_map]
  simp only [List.map_cons, List.map_map, Nat.add_zero]
  congr 1
  apply List.map_congr_left
  intro a _
  simp only [Function.comp]
  congr 1
  omega

theorem zip_otherSeg (other : ℕ → ℚ) :
    ∀ (t : List ℚ) (off : ℕ),
      t.zipWith (· + ·) (otherSeg other off t.length) = addOther other off t := by
  intro t
  induction t with
  | nil => intro off; rfl
  | cons x xs ih =>
      intro off
      rw [List.length_cons, otherSeg_succ]
      simp only [List.zipWith_cons_cons, addOther]
      rw [ih]

theorem zipWith_flatten_map (f g : ℕ → List ℚ)
    (hlen : ∀ i, (f i).length = (g i).length) :
    ∀ buffer : List ℕ,
      ((buffer.map f).flatten.zipWith (· + ·) (buffer.map g).flatten)
        = (buffer.map (fun i => (f i).zipWith (· + ·) (g i))).flatten := by
  intro buffer
  induction buffer with
  | nil => rfl
  | cons i rest ih =>
      simp only [List.map_cons, List.flatten_cons]
      rw [List.zipWith_append _ _ _ _ _ (hlen i), ih]

theorem packZip (other : ℕ → ℚ) (offs : ℕ → ℕ) (vals : List (List ℚ))
    (buffer : List ℕ) :
    (packBuffer vals buffer).zipWith (· + ·) (otherPack other offs vals buffer)
      = (buffer.map (fun i => addOther other (offs i) (vals.getD i []))).flatten := by
  unfold packBuffer otherPack
  rw [zipWith_flatten_map _ _
    (fun i => (otherSeg_length other (offs i) (vals.getD i []).length).symm)]
  congr 1
  apply List.map_congr_left
  intro i _
  exact zip_otherSeg other (vals.getD i []) (offs i)

theorem getD_set_self (l : List (List ℚ)) (i : ℕ) (a : List ℚ)
    (h : i < l.length) : (l.set i a).getD i [] = a := by
  rw [List.getD_eq_getElem _ _ (by rw [List.length_set]; exact h)]
  exact List.getElem_set_self _

theorem getD_set_ne (l : List (List ℚ)) (i j : ℕ) (a : List ℚ)
    (h : i ≠ j) : (l.set i a).getD j [] = l.getD j [] := by
  by_cases hj : j < l.length
  · rw [List.getD_eq_getElem _ _ (by rw [List.length_set]; exact hj),
      List.getD_eq_getElem _ _ hj]
    exact List.getElem_set_ne h _
  · rw [List.getD_eq_default _ _ (by rw [List.length_set]; omega),
      List.getD_eq_default _ _ (by omega)]

theorem unpack_fold (vals : List (List ℚ)) (divided : List ℚ)
    (seg : ℕ → List ℚ) :
    ∀ (buffer : List ℕ) (acc : List (List ℚ)) (off : ℕ),
      divided.drop off = (buffer.map seg).flatten →
      (∀ i ∈ buffer, (vals.getD i []).length = (seg i).length) →
      buffer.Nodup →
      (∀ i ∈ buffer, i < acc.length) →
      (∀ j ∈ buffer,
          (unpackGo vals divided buffer (acc, off)).1.getD j [] = seg j)
      ∧ (∀ j, j ∉ buffer →
          (unpackGo vals divided buffer (acc, off)).1.getD j [] = acc.getD j [])
      ∧ (unpackGo vals divided buffer (acc, off)).1.length = acc.length := by
  intro buffer
  induction buffer with
  | nil =>
      intro acc off _ _ _ _
      exact ⟨fun j hj => absurd hj (List.not_mem_nil j), fun j _ => rfl, rfl⟩
  | cons i rest ih =>
      intro acc off hdrop hlen hnd hbound
      have hni : i ∉ rest := (List.nodup_cons.mp hnd).1
      have hndr : rest.Nodup := (List.nodup_cons.mp hnd).2
      have hlen_i : (vals.getD i []).length = (seg i).length :=
        hlen i (List.mem_cons_self i rest)
      have hstep : unpackGo vals divided (i :: rest) (acc, off)
          = unpackGo vals divided rest
              (acc.set i ((divided.drop off).take (vals.getD i []).length),
                off + (vals.getD i []).length) := rfl
      have hdropoff : divided.drop off = seg i ++ (rest.map seg).flatten := by
        rw [hdrop]
        simp [List.flatten_cons]
      have htake : (divided.drop off).take (vals.getD i []).length = seg i := by
        rw [hdropoff, hlen_i]
        exact List.take_left _ _
      have hdrop' : divided.drop (off + (vals.getD i []).length)
          = (rest.map seg).flatten := by
        rw [← List.drop_drop, hdropoff, hlen_i]
        exact List.drop_left _ _
      obtain ⟨ih1, ih2, ih3⟩ := ih
        (acc.set i ((divided.drop off).take (vals.getD i []).length))
        (off + (vals.getD i []).length) hdrop'
        (fun a ha => hlen a (List.mem_cons_of_mem i ha)) hndr
        (fun a ha => by
          rw [List.length_set]
          exact hbound a (List.mem_cons_of_mem i ha))
      rw [hstep]
      refine ⟨?_, ?_, ?_⟩
      · intro j hj
        rcases List.mem_cons.mp hj with hj | hj
        · subst hj
          rw [ih2 j hni,
            getD_set_self _ _ _ (hbound j (List.mem_cons_self j rest)), htake]
        · exact ih1 j hj
      · intro j hj
        have hji : j ≠ i := fun h => hj (h ▸ List.mem_cons_self i rest)
        have hjr : j ∉ rest := fun h => hj (List.mem_cons_of_mem i h)
        rw [ih2 j hjr, getD_set_ne _ _ _ _ (Ne.symm hji)]
      · rw [ih3, List.length_set]

theorem flushBuffer_spec (other : ℕ → ℚ) (denom : ℚ) (offs : ℕ → ℕ)
    (vals : List (List ℚ)) (buffer : List ℕ)
    (hnd : buffer.Nodup) (hb : ∀ i ∈ buffer, i < vals.length) :
    (∀ j ∈ buffer, (flushBuffer other denom offs vals buffer).getD j []
        = (addOther other (offs j) (vals.getD j [])).map (· / denom))
    ∧ (∀ j, j ∉ buffer →
        (flushBuffer other denom offs vals buffer).getD j [] = vals.getD j [])
    ∧ (flushBuffer other denom offs vals buffer).length = vals.length := by
  have hdiv : ((packBuffer vals buffer).zipWith (· + ·)
        (otherPack other offs vals buffer)).map (· / denom)
      = (buffer.map (fun i =>
          (addOther other (offs i) (vals.getD i [])).map (· / denom))).flatten := by
    rw [packZip, List.map_flatten, List.map_map]
    rfl
  exact unpack_fold vals
    (((packBuffer vals buffer).zipWith (· + ·)
      (otherPack other offs vals buffer)).map (· / denom))
    (fun i => (addOther other (offs i) (vals.getD i [])).map (· / denom))
    buffer vals 0
    (by rw [List.drop_zero]; exact hdiv)
    (fun i _ => by rw [List.length_map, addOther_length])
    hnd hb

theorem arGo_spec (other : ℕ → ℚ) (denom : ℚ) (esize bufsize : ℕ)
    (offs : ℕ → ℕ) (ts : List (List ℚ)) :
    ∀ (rest : List ℕ) (vals : List (List ℚ)) (buffer : List ℕ) (filled : ℕ),
      vals.length = ts.length →
      (∀ i ∈ buffer, i < ts.length) →
      (∀ i ∈ rest, i < ts.length) →
      buffer.Nodup → rest.Nodup →
      (∀ i ∈ buffer, i ∉ rest) →
      (∀ i ∈ buffer, vals.getD i [] = ts.getD i []) →
      (∀ i ∈ rest, vals.getD i [] = ts.getD i []) →
      (∀ i, i < ts.length → i ∉ buffer → i ∉ rest →
        vals.getD i []
          = (addOther other (offs i) (ts.getD i [])).map (· / denom)) →
      (arGo other denom esize bufsize offs rest vals buffer filled).length
          = ts.length
      ∧ ∀ j, j < ts.length →
          (arGo other denom esize bufsize offs rest vals buffer filled).getD j []
            = (addOther other (offs j) (ts.getD j [])).map (· / denom) := by
  intro rest
  induction rest with
  | nil =>
      intro vals buffer filled hvlen hbb _hrb hbnd _hrnd _hdisj hbv _hrv hdone
      simp only [arGo]
      by_cases hbuf : buffer.length > 0
      · rw [if_pos hbuf]
        have hfs := flushBuffer_spec other denom offs vals buffer hbnd
          (fun i hi => hvlen ▸ hbb i hi)
        refine ⟨hfs.2.2.trans hvlen, ?_⟩
        intro j hj
        by_cases hjb : j ∈ buffer
        · rw [hfs.1 j hjb, hbv j hjb]
        · rw [hfs.2.1 j hjb]
          exact hdone j hj hjb (List.not_mem_nil j)
      · rw [if_neg hbuf]
        refine ⟨hvlen, ?_⟩
        intro j hj
        have hjb : j ∉ buffer := by
          intro hmem
          have := List.length_pos_of_mem hmem
          omega
        exact hdone j hj hjb (List.not_mem_nil j)
  | cons i rest' ih =>
      intro vals buffer filled hvlen hbb hrb hbnd hrnd hdisj hbv hrv hdone
      have hits : i < ts.length := hrb i (List.mem_cons_self i rest')
      have hinb : i ∉ buffer := fun h => hdisj i h (List.mem_cons_self i rest')
      have hinr : i ∉ rest' := (List.nodup_cons.mp hrnd).1
      have hrnd' : rest'.Nodup := (List.nodup_cons.mp hrnd).2
      have hvi : vals.getD i [] = ts.getD i [] :=
        hrv i (List.mem_cons_self i rest')
      simp only [arGo]
      by_cases h1 : (vals.getD i []).length * esize > bufsize
      · rw [if_pos h1]
        apply ih
        · rw [List.length_set]; exact hvlen
        · exact hbb
        · exact fun a ha => hrb a (List.mem_cons_of_mem i ha)
        · exact hbnd
        · exact hrnd'
        · exact fun a ha => fun hr => hdisj a ha (List.mem_cons_of_mem i hr)
        · intro a ha
          rw [getD_set_ne _ _ _ _ (by intro h; exact hinb (h ▸ ha))]
          exact hbv a ha
        · intro a ha
          rw [getD_set_ne _ _ _ _ (by intro h; exact hinr (h ▸ ha))]
          exact hrv a (List.mem_cons_of_mem i ha)
        · intro j hjl hjb hjr
          by_cases hji : j = i
          · subst hji
            rw [getD_set_self _ _ _ (hvlen ▸ hjl), hvi]
          · rw [getD_set_ne _ _ _ _ (Ne.symm hji)]
            exact hdone j hjl hjb (by
              intro hmem
              rcases List.mem_cons.mp hmem with h | h
              · exact hji h
              · exact hjr h)
      · rw [if_neg h1]
        by_cases h2 : filled + (vals.getD i []).length * esize > bufsize
        · rw [if_pos h2]
          have hfs := flushBuffer_spec other denom offs vals buffer hbnd
            (fun a ha => hvlen ▸ hbb a ha)
          apply ih
          · exact hfs.2.2.trans hvlen
          · intro a ha
            rw [List.mem_singleton.mp ha]
            exact hits
          · exact fun a ha => hrb a (List.mem_cons_of_mem i ha)
          · exact List.nodup_singleton i
          · exact hrnd'
          · intro a ha
            rw [List.mem_singleton.mp ha]
            exact hinr
          · intro a ha
            rw [List.mem_singleton.mp ha, hfs.2.1 i hinb]
            exact hvi
          · intro a ha
            have hab : a ∉ buffer :=
              fun h => hdisj a h (List.mem_cons_of_mem i ha)
            rw [hfs.2.1 a hab]
            exact hrv a (List.mem_cons_of_mem i ha)
          · intro j hjl hjb hjr
            have hji : j ≠ i := fun h => hjb (by rw [h]; exact List.mem_singleton.mpr rfl)
            by_cases hjbuf : j ∈ buffer
            · rw [hfs.1 j hjbuf, hbv j hjbuf]
            · rw [hfs.2.1 j hjbuf]
              exact hdone j hjl hjbuf (by
                intro hmem
                rcases List.mem_cons.mp hmem with h | h
                · exact hji h
                · exact hjr h)
        · rw [if_neg h2]
          apply ih
          · exact hvlen
          · intro a ha
            rcases List.mem_append.mp ha with h | h
            · exact hbb a h
            · rw [List.mem_singleton.mp h]; exact hits
          · exact fun a ha => hrb a (List.mem_cons_of_mem i ha)
          · rw [List.nodup_append]
            exact ⟨hbnd, List.nodup_singleton i,
              fun a ha hb => hinb ((List.mem_singleton.mp hb) ▸ ha)⟩
          · exact hrnd'
          · intro a ha
            rcases List.mem_append.mp ha with h | h
            · exact fun hr => hdisj a h (List.mem_cons_of_mem i hr)
            · rw [List.mem_singleton.mp h]; exact hinr
          · intro a ha
            rcases List.mem_append.mp ha with h | h
            · exact hbv a h
            · rw [List.mem_singleton.mp h]; exact hvi
          · exact fun a ha => hrv a (List.mem_cons_of_mem i ha)
          · intro j hjl hjb hjr
            have hjbuf : j ∉ buffer :=
              fun h => hjb (List.mem_append.mpr (Or.inl h))
            have hji : j ≠ i := fun h =>
              hjb (List.mem_append.mpr (Or.inr (List.mem_singleton.mpr h)))
            exact hdone j hjl hjbuf (by
              intro hmem
              rcases List.mem_cons.mp hmem with h | h
              · exact hji h
              · exact hjr h)

/-- **C6.**  For every non-empty list of tensors and positive rescale
denominator, the chunked all-reduce (packing tensors into a bounded
transfer buffer, flushing when the next tensor would overflow it, and
reducing any tensor larger than the buffer individually) leaves each
tensor with exactly the value of an unchunked per-tensor
all-reduce-sum followed by division by the denominator: packing and
unpacking preserve each tensor's position, size, and contents. -/
theorem C6 (other : ℕ → ℚ) (ts : List (List ℚ)) (denom : ℚ)
    (esize bufsize : ℕ) (hne : ts ≠ []) (hd : 0 < denom) :
    all_reduce_and_rescale_tensors other ts denom esize bufsize
      = some (naive_all_reduce_and_rescale other ts denom) := by
  have hemp : ts.isEmpty = false := by
    cases ts with
    | nil => exact absurd rfl hne
    | cons a l => rfl
  unfold all_reduce_and_rescale_tensors
  rw [hemp]
  simp only [Bool.false_eq_true, if_false]
  congr 1
  obtain ⟨hlen, hvals⟩ := arGo_spec other denom esize bufsize (flatOffset ts) ts
    (List.range ts.length) ts [] 0 rfl
    (fun i hi => absurd hi (List.not_mem_nil i))
    (fun i hi => List.mem_range.mp hi)
    List.nodup_nil (List.nodup_range _)
    (fun i hi => absurd hi (List.not_mem_nil i))
    (fun i hi => absurd hi (List.not_mem_nil i))
    (fun i _ => rfl)
    (fun i hil _hib hir => absurd (List.mem_range.mpr hil) hir)
  apply List.ext_getElem
  · rw [hlen]
    simp [naive_all_reduce_and_rescale]
  · intro j h1 h2
    have hj : j < ts.length := by rwa [hlen] at h1
    rw [← List.getD_eq_getElem _ [] h1, hvals j hj]
    simp [naive_all_reduce_and_rescale]

/-- Witness for `C6`: two tensors, element size 4 bytes, an 8-byte
buffer (the second tensor triggers a flush), denominator 2. -/
theorem C6_witness :
    ([[1, 2], [3]] : List (List ℚ)) ≠ []
    ∧ (0 : ℚ) < 2
    ∧ all_reduce_and_rescale_tensors (fun k => (k : ℚ)) [[1, 2], [3]] 2 4 8
      = some (naive_all_reduce_and_rescale (fun k => (k : ℚ)) [[1, 2], [3]] 2) :=
  ⟨by simp, by norm_num,
    C6 (fun k => (k : ℚ)) [[1, 2], [3]] 2 4 8 (by simp) (by norm_num)⟩

end Mammoth
